import Mathlib

/-!
# dbcc: CAN database to flip-test (BSM) conversion

A shallow embedding of `src/can.c` (model building: `ast2msg`) and `src/2bsm.c`
(layout walk and emission: `signal2bsm`, `msg2bsm`, `dbc2bsm`).

Conventions of the embedding:

* `unsigned` values are natural numbers; every addition the C code performs on
  them is reduced modulo `2^32` (`u32`).  Subtractions are only performed by the
  code under a guard that excludes wrap-around.
* The output stream `FILE *o` is the text written so far.  Writes to it succeed.
* `strcat_s` is the bounds-checked append of Annex K: when the destination
  buffer cannot hold the result, the runtime-constraint handler ends the call;
  this outcome is `none`.  The same holds for `asctime_s` when it is handed a size
  below the 26 bytes it requires.
* The format macros of the absent header `2bsm.h` are parameters (`BsmFormats`).
* The floating-point fields of `signal_t` take no part in the layout walk or in
  the flip-test emission and are left out of the record.
-/

namespace Dbcc

/-! ## Data model (can.h as used by can.c and 2bsm.c) -/

/-- Bit numbering of a signal; `motorola` is the zero value (can.c line 102, 128). -/
inductive endianess_e where
  | endianess_motorola_e
  | endianess_intel_e
  deriving DecidableEq

/-- One bit-packed field of a message (`signal_t`). -/
structure signal_t where
  name : String
  start_bit : Nat
  bit_length : Nat
  endianess : endianess_e
  is_signed : Bool
  units : String
  is_multiplexor : Bool
  is_multiplexed : Bool
  switchval : Nat
  deriving DecidableEq

/-- One CAN frame definition (`can_msg_t`); `signal_count` is `signals.length`. -/
structure can_msg_t where
  name : String
  ecu : String
  id : Nat
  dlc : Nat
  signals : List signal_t
  deriving DecidableEq

/-- The whole database (`dbc_t`); `message_count` is `messages.length`. -/
structure dbc_t where
  messages : List can_msg_t
  deriving DecidableEq

/-- Reduction of an `unsigned` result to 32 bits. -/
def u32 (n : Nat) : Nat := n % 4294967296

/-! ## 2bsm.c: first walk of `msg2bsm` (lines 155-183) -/

/-- The loop of lines 158-170: returns `padding_size` after the last signal. -/
def msg2bsm_first_walk : List signal_t → Nat → Nat → Nat
  | [], _, padding_size => padding_size
  | sig :: rest, last_bit, padding_size =>
    let padding_size :=
      if last_bit < sig.start_bit then u32 (padding_size + (sig.start_bit - last_bit))
      else padding_size
    let padding_size := u32 (padding_size + sig.bit_length)
    let last_bit := u32 (sig.start_bit + sig.bit_length)
    msg2bsm_first_walk rest last_bit padding_size

/-- The rounding ladder of lines 172-183. -/
def msg2bsm_round (padding_size : Nat) : Nat :=
  if padding_size ≤ 8 then 8
  else if padding_size ≤ 16 then 16
  else if padding_size ≤ 24 then 24
  else if padding_size ≤ 32 then 32
  else padding_size

/-- The value of `padding_size` handed to the message wrapper at line 185. -/
def msg2bsm_padding_size (msg : can_msg_t) : Nat :=
  msg2bsm_round (msg2bsm_first_walk msg.signals 0 0)

/-! ## 2bsm.c: `signal2bsm` (lines 98-147) -/

/-- The text `fprintf` produces for `%d` when handed an `unsigned` value. -/
def printf_d (n : Nat) : String :=
  if u32 n < 2147483648 then toString (u32 n) else "-" ++ toString (4294967296 - u32 n)

/-- The call `memset(buf, c, n)` on a buffer holding a C string: `n` bytes are set to
`c`.  With `n = 0` nothing is written; with `c = 0` and `n > 0` the string is emptied. -/
def memset (buf : String) (c n : Nat) : String :=
  if n = 0 then buf
  else if c = 0 then ""
  else String.mk (List.replicate n (Char.ofNat c)) ++ buf.drop n

/-- The call `strcat_s(dest, size, src)`: appends when the result and its terminator
fit in `size` bytes; otherwise the runtime constraint is violated (`none`). -/
def strcat_s (dest : String) (size : Nat) (src : String) : Option String :=
  if dest.length + src.length + 1 ≤ size then some (dest ++ src) else none

/-- The marker loops of lines 110-115, 122-127 and 133-138, run `n` times on `szBits`. -/
def szBits_loop : Nat → String → Option String
  | 0, szBits => some szBits
  | n + 1, szBits =>
    match (if szBits.length > 0 then strcat_s szBits 128 "," else some szBits) with
    | none => none
    | some szBits =>
      match strcat_s szBits 128 "1" with
      | none => none
      | some szBits => szBits_loop n szBits

/-- The function `signal2bsm`: the return value and the stream after the call. -/
def signal2bsm (sig : signal_t) (o : String) (_depth : Nat) : Option (Int × String) :=
  let szBits := ""
  if sig.bit_length > 16 then
    let o := o ++ ("\t\t\t\t\t\t\t\t\t<BE Name=\"" ++ sig.name ++ " (LSB) Flipper\">\n")
    let o := o ++ ("\t\t\t\t\t\t\t\t\t\t<BB Name=\"" ++ sig.name
      ++ " (LSB) - Normal\" Bits=\"0\" Size=\"" ++ printf_d 16 ++ "\" />\n")
    let szBits := memset szBits 128 0
    match szBits_loop 16 szBits with
    | none => none
    | some szBits =>
      let o := o ++ ("\t\t\t\t\t\t\t\t\t\t<BB Name=\"" ++ sig.name
        ++ " (LSB) - Flipped\" Bits=\"" ++ szBits ++ "\" Size=\"" ++ printf_d 16 ++ "\" />\n")
      let o := o ++ "\t\t\t\t\t\t\t\t\t</BE>\n"
      let o := o ++ ("\t\t\t\t\t\t\t\t\t<BE Name=\"" ++ sig.name ++ " (MSB) Flipper\">\n")
      let o := o ++ ("\t\t\t\t\t\t\t\t\t\t<BB Name=\"" ++ sig.name
        ++ " (MSB) - Normal\" Bits=\"0\" Size=\"" ++ printf_d (sig.bit_length - 16) ++ "\" />\n")
      let szBits := memset szBits 128 0
      match szBits_loop (sig.bit_length - 16) szBits with
      | none => none
      | some szBits =>
        let o := o ++ ("\t\t\t\t\t\t\t\t\t\t<BB Name=\"" ++ sig.name
          ++ " (MSB) - Flipped\" MultiBits=\"" ++ szBits ++ "\" Size=\""
          ++ printf_d (sig.bit_length - 16) ++ "\" />\n")
        let o := o ++ "\t\t\t\t\t\t\t\t\t</BE>\n"
        some (0, o)
  else
    let szBits := memset szBits 128 0
    match szBits_loop sig.bit_length szBits with
    | none => none
    | some szBits =>
      let o := o ++ ("\t\t\t\t\t\t\t\t\t<BE Name=\"" ++ sig.name ++ " Flipper\">\n")
      let o := o ++ ("\t\t\t\t\t\t\t\t\t\t<BB Name=\"" ++ sig.name
        ++ " - Normal\" Bits=\"0\" Size=\"" ++ printf_d sig.bit_length ++ "\" />\n")
      let o := o ++ ("\t\t\t\t\t\t\t\t\t\t<BB Name=\"" ++ sig.name
        ++ " - Flipped\" MultiBits=\"" ++ szBits ++ "\" Size=\""
        ++ printf_d sig.bit_length ++ "\" />\n")
      let o := o ++ "\t\t\t\t\t\t\t\t\t</BE>\n"
      some (0, o)

/-- The contents of `szBits` after each append of the marker loop run `n` times, in
order, when every append is carried out in full. -/
def szBits_states : Nat → String → List String
  | 0, _ => []
  | n + 1, szBits =>
    (if szBits.length > 0 then [szBits ++ ","] else [])
      ++ ((if szBits.length > 0 then szBits ++ "," else szBits) ++ "1")
        :: szBits_states n ((if szBits.length > 0 then szBits ++ "," else szBits) ++ "1")

/-- The contents of `szBits` after the marker loop, when every append is carried out in
full. -/
def szBits_final (n : Nat) (szBits : String) : String :=
  (szBits_states n szBits).getLastD szBits

/-- Every content `szBits` takes during one call of `signal2bsm`, in order: the loop of
lines 110-115 followed by the loop of lines 122-127 for a signal above 16 bits, the loop
of lines 133-138 otherwise; the `memset` calls stand where the source has them. -/
def signal2bsm_szBits (sig : signal_t) : List String :=
  if sig.bit_length > 16 then
    szBits_states 16 (memset "" 128 0)
      ++ szBits_states (sig.bit_length - 16)
          (memset (szBits_final 16 (memset "" 128 0)) 128 0)
  else szBits_states sig.bit_length (memset "" 128 0)

/-! ## 2bsm.c: second walk of `msg2bsm` (lines 187-255) -/

/-- The format macros of `2bsm.h`, each as the text its `fprintf` call writes. -/
structure BsmFormats where
  BSM_PREFIX : String
  BSM_SUFFIX : String
  BSM_MESSAGE_PREFIX : String → Nat → Nat → Nat → String
  BSM_MESSAGE_SUFFIX : String

/-- The function `indent`: one tab per level. -/
def indent (o : String) (depth : Nat) : String :=
  o ++ String.mk (List.replicate depth '\t')

/-- The two places where `msg2bsm` calls `signal2bsm`: line 212 and line 219. -/
inductive call_site where
  | filler
  | real
  deriving DecidableEq

/-- The record of the `signal2bsm` calls made so far, with their arguments. -/
abbrev call_log := List (call_site × signal_t)

/-- The local `unknownsig` of lines 204-210. -/
def unknownsig (last_bit start_bit : Nat) : signal_t :=
  { name := "UNKNOWN", start_bit := last_bit, bit_length := start_bit - last_bit,
    endianess := endianess_e.endianess_motorola_e, is_signed := false, units := "",
    is_multiplexor := false, is_multiplexed := false, switchval := 0 }

/-- Lines 202-216: the filler call when `last_bit < sig->start_bit`.  The result is the
return value of the `signal2bsm` call (0 when none is made), the stream and the record. -/
def msg2bsm_gap (sig : signal_t) (last_bit : Nat) (o : String) (log : call_log)
    (depth : Nat) : Option (Int × String × call_log) :=
  if last_bit < sig.start_bit then
    match signal2bsm (unknownsig last_bit sig.start_bit) o (depth + 1) with
    | none => none
    | some (r, o) => some (r, o, log ++ [(call_site.filler, unknownsig last_bit sig.start_bit)])
  else some (0, o, log)

/-- The loop of lines 189-223 followed by lines 252-254: the return value of `msg2bsm`,
the stream and the record of `signal2bsm` calls. -/
def msg2bsm_second_walk (F : BsmFormats) (depth : Nat) :
    List signal_t → Nat → Option signal_t → String → call_log →
      Option (Int × String × call_log)
  | [], _, _, o, log => some (0, o ++ F.BSM_MESSAGE_SUFFIX, log)
  | sig :: rest, last_bit, multiplexor, o, log =>
    if sig.is_multiplexor then
      if multiplexor.isSome then some (-1, o, log)
      else msg2bsm_second_walk F depth rest last_bit (some sig) o log
    else if sig.is_multiplexed then
      msg2bsm_second_walk F depth rest last_bit multiplexor o log
    else
      match msg2bsm_gap sig last_bit o log depth with
      | none => none
      | some (r, o, log) =>
        if r < 0 then some (-1, o, log)
        else
          match signal2bsm sig o (depth + 1) with
          | none => none
          | some (r, o) =>
            if r < 0 then some (-1, o, log ++ [(call_site.real, sig)])
            else
              msg2bsm_second_walk F depth rest (u32 (sig.start_bit + sig.bit_length))
                multiplexor o (log ++ [(call_site.real, sig)])

/-- The function `msg2bsm`. -/
def msg2bsm (F : BsmFormats) (msg : can_msg_t) (o : String) (depth : Nat) :
    Option (Int × String × call_log) :=
  let o := indent o depth
  let padding_size := msg2bsm_padding_size msg
  let o := o ++ F.BSM_MESSAGE_PREFIX msg.name msg.id msg.id padding_size
  msg2bsm_second_walk F depth msg.signals 0 none o []

/-! ## 2bsm.c: `dbc2bsm` (lines 257-285) -/

/-- The function `comment` with its formatted text already expanded. -/
def comment (o : String) (depth : Nat) (text : String) : String :=
  indent o depth ++ "<!-- " ++ text ++ " -->\n"

/-- The loop of lines 276-280 followed by lines 282-284. -/
def dbc2bsm_loop (F : BsmFormats) : List can_msg_t → String → Option (Int × String)
  | [], output => some (0, output ++ F.BSM_SUFFIX)
  | msg :: rest, output =>
    match msg2bsm F msg output 1 with
    | none => none
    | some (r, output, _) =>
      if r < 0 then some (-1, output) else dbc2bsm_loop F rest output

/-- The call `asctime_s(str, maxsize, &timeinfo)`: the time text (25 characters and the
terminator) is stored in `str` when `maxsize` is at least 26; a smaller `maxsize`
violates the runtime constraint of the function (`none`).  The time text `clock` stands
for the value the clock calls of lines 262-265 deliver. -/
def asctime_s (maxsize : Nat) (clock : String) : Option String :=
  if maxsize < 26 then none else some clock

/-- The function `dbc2bsm`; `clock` is the time text of the clock value.  The buffer
`str` has 26 bytes and line 272 hands `asctime_s` the size `sizeof(str) - 1`. -/
def dbc2bsm (F : BsmFormats) (dbc : dbc_t) (output : String) (use_time_stamps : Bool)
    (clock : String) : Option (Int × String) :=
  let output := comment output 0 "Generated by dbcc (see https://github.com/howerj/dbcc)"
  let output := output ++ F.BSM_PREFIX
  if use_time_stamps then
    match asctime_s (26 - 1) clock with
    | none => none
    | some str => dbc2bsm_loop F dbc.messages (comment output 0 ("Generated on: " ++ str))
  else dbc2bsm_loop F dbc.messages output

/-! ## can.c: the signal sort of `ast2msg` (lines 164-178) -/

/-- The `for` loop of lines 169-176 from index `i` on, where `a` is `signals[i]` and the
list holds `signals[i+1..]`: the array from index `i` on after the run, and whether a
swap was made. -/
def ast2msg_bubble (a : signal_t) : List signal_t → List signal_t × Bool
  | [] => ([a], false)
  | b :: rest =>
    if a.start_bit > b.start_bit then
      (b :: (ast2msg_bubble a rest).1, true)
    else
      (a :: (ast2msg_bubble b rest).1, (ast2msg_bubble b rest).2)

/-- One run of the `for` loop of lines 169-176: the array after the run and `bFlip`. -/
def ast2msg_pass : List signal_t → List signal_t × Bool
  | [] => ([], false)
  | a :: rest => ast2msg_bubble a rest

/-- The `do ... while (bFlip)` loop of lines 167-177, bounded by `fuel` runs. -/
def ast2msg_loop : Nat → List signal_t → Option (List signal_t)
  | 0, _ => none
  | fuel + 1, signals =>
    if (ast2msg_pass signals).2 then ast2msg_loop fuel (ast2msg_pass signals).1
    else some (ast2msg_pass signals).1

/-- Lines 164-178: the signal array `ast2msg` stores, from the collected signals. -/
def ast2msg_sort (fuel : Nat) (signals : List signal_t) : Option (List signal_t) :=
  if signals.length > 1 then ast2msg_loop fuel signals else some signals

/-! ## 2bsm.c: `print_escaped` (lines 16-36) -/

/-- The `while` loop of lines 22-34 over the characters of `string`: the return value
of `print_escaped` and the stream after the call. -/
def print_escaped_loop : List Char → String → Int × String
  | [], o => (0, o)
  | c :: rest, o =>
    let o :=
      if c = '"' then o ++ "&quot;"
      else if c = Char.ofNat 39 then o ++ "&apos;"
      else if c = '<' then o ++ "&lt;"
      else if c = '>' then o ++ "&gt;"
      else if c = '&' then o ++ "&amp;"
      else o.push c
    print_escaped_loop rest o

/-- The function `print_escaped`. -/
def print_escaped (o : String) (string : String) : Int × String :=
  print_escaped_loop string.toList o

/-- The text `print_escaped` writes for a string. -/
def escapedText (s : String) : String := (print_escaped "" s).2

/-! ## can.c: model building (`ast2signal`, `ast2msg`, `ast2dbc`) -/

/-- The white-space characters of `isspace`: space, tab, line feed, vertical tab, form
feed and carriage return. -/
def isspace (c : Char) : Bool := c = ' ' || (9 ≤ c.toNat && c.toNat ≤ 13)

/-- The start of a text as the integer conversions read it: leading white space is
skipped, a sign may come first, then the decimal digits are read.  The result is
whether a minus sign was read and the number the digits spell; `none` when no digit is
found. -/
def scan_integer (contents : String) : Option (Bool × Nat) :=
  let cs := contents.toList.dropWhile isspace
  let neg := cs.head? = some '-'
  let cs := if cs.head? = some '-' ∨ cs.head? = some '+' then cs.tail else cs
  let ds := cs.takeWhile Char.isDigit
  if ds = [] then none
  else some (decide neg, ds.foldl (fun acc d => 10 * acc + (d.toNat - 48)) 0)

/-- The value `sscanf_s` stores for the conversion `%u`: the number is converted as an
`unsigned long` of 64 bits (a number of 2^64 or more gives the largest value, a minus
sign negates modulo 2^64) and stored in the 32-bit `unsigned`; `none` when no digit is
found (the call does not return 1). -/
def sscanf_u (contents : String) : Option Nat :=
  match scan_integer contents with
  | none => none
  | some (neg, v) =>
    some (u32 (if 18446744073709551616 ≤ v then 18446744073709551615
      else if neg then (18446744073709551616 - v) % 18446744073709551616
      else v))

/-- The value of `atol` as stored in the unsigned `switchval`: the number is converted as
a `long` of 64 bits (out of range it gives the largest or the smallest value) and
reduced to 32 bits; 0 when no digit is found. -/
def atol (contents : String) : Nat :=
  match scan_integer contents with
  | none => 0
  | some (neg, v) =>
    u32 (if neg then 18446744073709551616 - min v 9223372036854775808
      else min v 9223372036854775807)

/-- The children of a "signal|>" node that `ast2signal` reads, by their contents.  The
grammar guarantees that the required children exist; of the four floating-point
children only whether `sscanf_s` converts them (returns 1) is kept. -/
structure signal_ast where
  name : String
  startbit : String
  length : String
  endianess : String
  sign : String
  scalar_converts : Bool
  offset_converts : Bool
  min_converts : Bool
  max_converts : Bool
  unit : String
  multiplex : Option String
  multiplexor_char : Bool
  deriving DecidableEq

/-- The function `ast2signal`; `none` when one of its assertions fails. -/
def ast2signal (ast : signal_ast) : Option signal_t :=
  match sscanf_u ast.startbit with
  | none => none
  | some start_bit =>
    if ¬ start_bit ≤ 64 then none
    else
      match sscanf_u ast.length with
      | none => none
      | some bit_length =>
        if ¬ bit_length ≤ 64 then none
        else
          let endchar := ast.endianess.toList.headD (Char.ofNat 0)
          if ¬ (endchar = '0' ∨ endchar = '1') then none
          else
            let signchar := ast.sign.toList.headD (Char.ofNat 0)
            if ¬ (signchar = '+' ∨ signchar = '-') then none
            else if ¬ (ast.scalar_converts ∧ ast.offset_converts) then none
            else if ¬ (ast.min_converts ∧ ast.max_converts) then none
            else
              let is_multiplexed := ast.multiplex.isSome
              let switchval := match ast.multiplex with
                | some contents => atol contents
                | none => 0
              if ast.multiplexor_char ∧ is_multiplexed then none
              else
                some
                  { name := ast.name, start_bit := start_bit, bit_length := bit_length,
                    endianess :=
                      if endchar = '0' then endianess_e.endianess_motorola_e
                      else endianess_e.endianess_intel_e,
                    is_signed := decide (signchar = '-'), units := ast.unit,
                    is_multiplexor := ast.multiplexor_char,
                    is_multiplexed := is_multiplexed, switchval := switchval }

/-- The children of a "message|>" node that `ast2msg` reads: the contents of the name,
ECU, DLC and ID children and the "signal|>" children in source order. -/
structure msg_ast where
  name : String
  ecu : String
  dlc : String
  id : String
  signals : List signal_ast
  deriving DecidableEq

/-- The collection loops of lines 151-159 and 216-223: every element is converted in
order; an assertion that fails in one conversion ends the run. -/
def collect {α β : Type} (f : α → Option β) : List α → Option (List β)
  | [] => some []
  | a :: rest =>
    match f a with
    | none => none
    | some b =>
      match collect f rest with
      | none => none
      | some bs => some (b :: bs)

/-- The function `ast2msg`; `none` when an assertion fails or the sort is not finished
within `fuel` runs. -/
def ast2msg (fuel : Nat) (ast : msg_ast) : Option can_msg_t :=
  match sscanf_u ast.dlc with
  | none => none
  | some dlc =>
    match sscanf_u ast.id with
    | none => none
    | some id =>
      match collect ast2signal ast.signals with
      | none => none
      | some signals =>
        match ast2msg_sort fuel signals with
        | none => none
        | some signals =>
          some { name := ast.name, ecu := ast.ecu, id := id, dlc := dlc, signals := signals }

/-- The part of the syntax tree `ast2dbc` reads: the "messages|>" child if there is one,
as the list of its children; a child is a "message|>" node or a node with another tag. -/
structure dbc_ast where
  messages : Option (List (Option msg_ast))
  deriving DecidableEq

/-- The function `ast2dbc`.  The outer `none` is a failed assertion (or an unfinished
sort) in `ast2msg`; `some none` is the return value `NULL`. -/
def ast2dbc (fuel : Nat) (ast : dbc_ast) : Option (Option dbc_t) :=
  match ast.messages with
  | none => some none
  | some children =>
    if children.length ≤ 0 then some none
    else
      match collect (ast2msg fuel) (children.filterMap id) with
      | none => none
      | some messages => some (some { messages := messages })

/-! ## Vocabulary of the specification -/

/-- Covered bits as the specification words them: every signal length plus every
gap `start_bit - last_bit`, with `last_bit` starting at the given value and set
to `start_bit + bit_length` after each signal (no machine arithmetic). -/
def coveredBits : List signal_t → Nat → Nat
  | [], _ => 0
  | sig :: rest, last_bit =>
    (if last_bit < sig.start_bit then sig.start_bit - last_bit else 0) + sig.bit_length
      + coveredBits rest (sig.start_bit + sig.bit_length)

/-- The four payload sizes of the layout analyzer. -/
def paddedSizes : List Nat := [8, 16, 24, 32]

/-- A plain signal (neither multiplexor nor multiplexed) with the given name and bit range. -/
def plainSignal (name : String) (start_bit bit_length : Nat) : signal_t :=
  { name := name, start_bit := start_bit, bit_length := bit_length,
    endianess := endianess_e.endianess_intel_e, is_signed := false, units := "",
    is_multiplexor := false, is_multiplexed := false, switchval := 0 }

/-- A message with the given signals. -/
def messageOf (name : String) (id dlc : Nat) (signals : List signal_t) : can_msg_t :=
  { name := name, ecu := "ECU", id := id, dlc := dlc, signals := signals }

/-- The text of `n` all-bits-set markers "1" joined by the separator ",". -/
def markers (n : Nat) : String := ",".intercalate (List.replicate n "1")

/-- One sub-entry of a grouped block: its name, the attribute carrying its contents
("Bits" or "MultiBits"), the contents and the width. -/
structure BB where
  Name : String
  attr : String
  content : String
  Size : Nat

/-- One grouped block: its name and its sub-entries in order. -/
structure BE where
  Name : String
  entries : List BB

/-- The output text of a sub-entry; the width is written in decimal. -/
def BB.render (b : BB) : String :=
  "\t\t\t\t\t\t\t\t\t\t<BB Name=\"" ++ b.Name ++ "\" " ++ b.attr ++ "=\"" ++ b.content
    ++ "\" Size=\"" ++ toString b.Size ++ "\" />\n"

/-- The output text of a grouped block. -/
def BE.render (e : BE) : String :=
  "\t\t\t\t\t\t\t\t\t<BE Name=\"" ++ e.Name ++ "\">\n"
    ++ String.join (e.entries.map BB.render) ++ "\t\t\t\t\t\t\t\t\t</BE>\n"

/-- The single block of a signal of at most 16 bits: a normal entry at bit offset 0
and a flipped entry of `bit_length` markers, both of width `bit_length`. -/
def narrowBlock (sig : signal_t) : BE :=
  { Name := sig.name ++ " Flipper",
    entries :=
      [ { Name := sig.name ++ " - Normal", attr := "Bits", content := "0",
          Size := sig.bit_length },
        { Name := sig.name ++ " - Flipped", attr := "MultiBits",
          content := markers sig.bit_length, Size := sig.bit_length } ] }

/-- The "(LSB)" block of a signal wider than 16 bits: both entries of width 16. -/
def lsbBlock (sig : signal_t) : BE :=
  { Name := sig.name ++ " (LSB) Flipper",
    entries :=
      [ { Name := sig.name ++ " (LSB) - Normal", attr := "Bits", content := "0", Size := 16 },
        { Name := sig.name ++ " (LSB) - Flipped", attr := "Bits",
          content := markers 16, Size := 16 } ] }

/-- The "(MSB)" block of a signal wider than 16 bits, with the given flipped contents:
both entries of width `bit_length - 16`. -/
def msbBlock (sig : signal_t) (flipped : String) : BE :=
  { Name := sig.name ++ " (MSB) Flipper",
    entries :=
      [ { Name := sig.name ++ " (MSB) - Normal", attr := "Bits", content := "0",
          Size := sig.bit_length - 16 },
        { Name := sig.name ++ " (MSB) - Flipped", attr := "MultiBits",
          content := flipped, Size := sig.bit_length - 16 } ] }

/-- The number of markers "1" in a contents string. -/
def markerCount (content : String) : Nat := content.toList.count '1'

/-- The ranges `ast2signal` asserts (can.c lines 97 and 99). -/
abbrev signal_in_range (sig : signal_t) : Prop :=
  sig.start_bit ≤ 64 ∧ sig.bit_length ≤ 64

/-- A signal taking part in the emission walk: neither multiplexor nor multiplexed. -/
def is_plain (sig : signal_t) : Bool := !sig.is_multiplexor && !sig.is_multiplexed

/-- The signals the second walk looks at before it meets a second multiplexor;
`seen` tells whether a multiplexor has been recorded already. -/
def beforeSecondMultiplexor : List signal_t → Bool → List signal_t
  | [], _ => []
  | sig :: rest, seen =>
    if sig.is_multiplexor then
      if seen then [] else sig :: beforeSecondMultiplexor rest true
    else sig :: beforeSecondMultiplexor rest seen

/-- The number of out-of-order pairs of a signal list: positions `i < j` whose
`start_bit` values are in descending order. -/
def inversions : List signal_t → Nat
  | [] => 0
  | a :: rest => rest.countP (fun b => a.start_bit > b.start_bit) + inversions rest

/-- Ascending order by `start_bit`. -/
abbrev startBitSorted (signals : List signal_t) : Prop :=
  signals.Pairwise (fun a b => a.start_bit ≤ b.start_bit)

/-- The signals of a list that start at bit `k`, in their order in the list. -/
def startingAt (k : Nat) (signals : List signal_t) : List signal_t :=
  signals.filter (fun sig => sig.start_bit = k)

/-- The stable ascending sort by `start_bit`: insertion of each signal, from the last to
the first, in front of the first signal whose `start_bit` is not smaller. -/
def stableSortByStartBit (signals : List signal_t) : List signal_t :=
  signals.insertionSort (fun a b => a.start_bit ≤ b.start_bit)

/-- Whether the second walk meets a second multiplexor; `seen` tells whether a
multiplexor has been recorded already. -/
def hasSecondMultiplexor : List signal_t → Bool → Bool
  | [], _ => false
  | sig :: rest, seen =>
    if sig.is_multiplexor then
      if seen then true else hasSecondMultiplexor rest true
    else hasSecondMultiplexor rest seen

/-- The number of signals of a list flagged `is_multiplexor`. -/
def multiplexorCount (signals : List signal_t) : Nat :=
  signals.countP (fun sig => sig.is_multiplexor)

/-- The filler rule as the specification words it, for the emitted signals in order:
a filler named "UNKNOWN" with empty units, `start_bit = last_bit` and
`bit_length = start_bit - last_bit` goes immediately before a signal exactly when
its `start_bit` is greater than `last_bit`; afterwards `last_bit` is
`start_bit + bit_length` of that signal. -/
def fillerPlan : List signal_t → Nat → call_log
  | [], _ => []
  | sig :: rest, last_bit =>
    (if sig.start_bit > last_bit then
        [(call_site.filler,
          { name := "UNKNOWN", start_bit := last_bit, bit_length := sig.start_bit - last_bit,
            endianess := endianess_e.endianess_motorola_e, is_signed := false, units := "",
            is_multiplexor := false, is_multiplexed := false, switchval := 0 })]
      else [])
      ++ (call_site.real, sig) :: fillerPlan rest (sig.start_bit + sig.bit_length)

/-- The signals of the calls made at line 219, in order. -/
def realCalls (log : call_log) : List signal_t :=
  (log.filter (fun c => c.1 = call_site.real)).map (fun c => c.2)

/-- The text `signal2bsm` writes for a signal of at most 64 bits: one block up to 16
bits, an "(LSB)" and an "(MSB)" block above. -/
def blockText (sig : signal_t) : String :=
  if sig.bit_length ≤ 16 then BE.render (narrowBlock sig)
  else BE.render (lsbBlock sig) ++ BE.render (msbBlock sig (markers sig.bit_length))

/-- The text of the blocks of a sequence of `signal2bsm` calls, in order. -/
def logText : call_log → String
  | [] => ""
  | c :: rest => blockText c.2 ++ logText rest

/-- The five characters of the substitution table. -/
def isTableChar (c : Char) : Bool :=
  c = '"' || c = Char.ofNat 39 || c = '<' || c = '>' || c = '&'

/-- The substitution table applied to every character of a list. -/
def escapeChars : List Char → List Char
  | [] => []
  | c :: rest =>
    (if c = '"' then ['&', 'q', 'u', 'o', 't', ';']
      else if c = Char.ofNat 39 then ['&', 'a', 'p', 'o', 's', ';']
      else if c = '<' then ['&', 'l', 't', ';']
      else if c = '>' then ['&', 'g', 't', ';']
      else if c = '&' then ['&', 'a', 'm', 'p', ';']
      else [c]) ++ escapeChars rest

/-- The substitution table read backwards, from left to right over a text: "&quot;"
gives the double quote, "&apos;" the apostrophe, "&lt;" and "&gt;" the angle brackets,
"&amp;" the ampersand; every other character is kept. -/
def reverseTableChars : List Char → List Char
  | '&' :: 'q' :: 'u' :: 'o' :: 't' :: ';' :: tail => '"' :: reverseTableChars tail
  | '&' :: 'a' :: 'p' :: 'o' :: 's' :: ';' :: tail => Char.ofNat 39 :: reverseTableChars tail
  | '&' :: 'l' :: 't' :: ';' :: tail => '<' :: reverseTableChars tail
  | '&' :: 'g' :: 't' :: ';' :: tail => '>' :: reverseTableChars tail
  | '&' :: 'a' :: 'm' :: 'p' :: ';' :: tail => '&' :: reverseTableChars tail
  | c :: rest => c :: reverseTableChars rest
  | [] => []

/-- The substitution table read backwards on a text. -/
def reverseTable (text : String) : String := String.mk (reverseTableChars text.toList)

/-- The sum of `bit_length` over the entries, filler and real, handed to `signal2bsm`. -/
def emittedBits (log : call_log) : Nat := (log.map (fun c => c.2.bit_length)).sum

/-- Signals laid out one after the other: every signal starts at or after the end of
every signal in front of it (ascending and free of overlap). -/
abbrev laidOutInOrder (signals : List signal_t) : Prop :=
  signals.Pairwise (fun a b => a.start_bit + a.bit_length ≤ b.start_bit)


/-! ## Lemmas on the first walk -/

theorem msg2bsm_round_le_32 (p : Nat) (h : p ≤ 32) :
    msg2bsm_round p ∈ paddedSizes ∧ p ≤ msg2bsm_round p ∧
      ∀ v ∈ paddedSizes, p ≤ v → msg2bsm_round p ≤ v := by
  unfold msg2bsm_round paddedSizes
  refine ⟨?_, ?_, ?_⟩
  · split_ifs <;> simp
  · split_ifs <;> omega
  · intro v hv hpv
    simp only [List.mem_cons, List.mem_singleton, List.not_mem_nil, or_false] at hv
    split_ifs <;> omega

theorem msg2bsm_round_gt_32 (p : Nat) (h : 32 < p) : msg2bsm_round p = p := by
  unfold msg2bsm_round
  split_ifs <;> omega

/-- Without wrap-around the first walk adds the covered bits to `padding_size`. -/
theorem msg2bsm_first_walk_eq (sigs : List signal_t) :
    ∀ last_bit padding_size : Nat,
      last_bit + coveredBits sigs last_bit < 4294967296 →
      padding_size + coveredBits sigs last_bit < 4294967296 →
      msg2bsm_first_walk sigs last_bit padding_size
        = padding_size + coveredBits sigs last_bit := by
  induction sigs with
  | nil => intro last_bit padding_size _ _; simp [msg2bsm_first_walk, coveredBits]
  | cons sig rest ih =>
    intro last_bit padding_size h1 h2
    simp only [coveredBits] at h1 h2 ⊢
    simp only [msg2bsm_first_walk, u32]
    by_cases hg : last_bit < sig.start_bit
    · simp only [hg, if_true] at h1 h2 ⊢
      have e1 : (sig.start_bit + sig.bit_length) % 4294967296
          = sig.start_bit + sig.bit_length := Nat.mod_eq_of_lt (by omega)
      have e2 : (padding_size + (sig.start_bit - last_bit)) % 4294967296
          = padding_size + (sig.start_bit - last_bit) := Nat.mod_eq_of_lt (by omega)
      have e3 : (padding_size + (sig.start_bit - last_bit) + sig.bit_length) % 4294967296
          = padding_size + (sig.start_bit - last_bit) + sig.bit_length :=
        Nat.mod_eq_of_lt (by omega)
      rw [e1, e2, e3, ih _ _ (by omega) (by omega)]
      omega
    · simp only [hg, if_false] at h1 h2 ⊢
      have e1 : (sig.start_bit + sig.bit_length) % 4294967296
          = sig.start_bit + sig.bit_length := Nat.mod_eq_of_lt (by omega)
      have e3 : (padding_size + sig.bit_length) % 4294967296
          = padding_size + sig.bit_length := Nat.mod_eq_of_lt (by omega)
      rw [e1, e3, ih _ _ (by omega) (by omega)]
      omega

/-! ## Lemmas on the marker loop -/

theorem intercalate_go_replicate_succ (acc sep x : String) (n : Nat) :
    String.intercalate.go acc sep (List.replicate (n + 1) x)
      = String.intercalate.go acc sep (List.replicate n x) ++ sep ++ x := by
  induction n generalizing acc with
  | zero => simp [List.replicate, String.intercalate.go]
  | succ n ih =>
    rw [List.replicate_succ, String.intercalate.go, ih]
    simp [List.replicate_succ, String.intercalate.go]

theorem markers_one : markers 1 = "1" := by
  simp [markers, String.intercalate, String.intercalate.go]

theorem markers_succ_succ (n : Nat) : markers (n + 2) = markers (n + 1) ++ "," ++ "1" := by
  simp only [markers, List.replicate_succ, String.intercalate]
  have h := intercalate_go_replicate_succ "1" "," "1" n
  rw [List.replicate_succ] at h
  cases n with
  | zero => simp [String.intercalate.go]
  | succ n => simpa [List.replicate_succ] using h

theorem markers_length (n : Nat) : (markers (n + 1)).length = 2 * n + 1 := by
  induction n with
  | zero => rw [markers_one]; rfl
  | succ n ih =>
    rw [markers_succ_succ, String.length_append, String.length_append, ih]
    have h1 : ",".length = 1 := rfl
    have h2 : "1".length = 1 := rfl
    omega

/-- From a non-empty marker string the loop appends `m` further markers. -/
theorem szBits_loop_markers (m : Nat) :
    ∀ k : Nat, k + 1 + m ≤ 64 →
      szBits_loop m (markers (k + 1)) = some (markers (k + 1 + m)) := by
  induction m with
  | zero => intro k _; simp [szBits_loop]
  | succ m ih =>
    intro k hk
    have hl := markers_length k
    have h1 : ",".length = 1 := rfl
    have h2 : "1".length = 1 := rfl
    have hpos : (markers (k + 1)).length > 0 := by omega
    have hfit1 : (markers (k + 1)).length + ",".length + 1 ≤ 128 := by omega
    have hfit2 : (markers (k + 1) ++ ",").length + "1".length + 1 ≤ 128 := by
      rw [String.length_append]; omega
    have hstep : markers (k + 1) ++ "," ++ "1" = markers (k + 1 + 1) :=
      (markers_succ_succ k).symm
    simp only [szBits_loop, hpos, if_true, strcat_s, hfit1, hfit2, hstep]
    rw [ih (k + 1) (by omega)]
    congr 2
    omega

/-- From the empty buffer the loop builds exactly `n` markers, for `n ≤ 64`. -/
theorem szBits_loop_empty (n : Nat) (h : n ≤ 64) : szBits_loop n "" = some (markers n) := by
  cases n with
  | zero => simp [szBits_loop, markers, String.intercalate]
  | succ n =>
    have h0 : ¬ ("".length > 0) := by decide
    have hfit : "".length + "1".length + 1 ≤ 128 := by decide
    have he : "" ++ "1" = markers (0 + 1) := by rw [markers_one]; rfl
    simp only [szBits_loop, h0, if_false, strcat_s, hfit, if_true, he]
    rw [szBits_loop_markers n 0 (by omega)]
    congr 2
    omega

/-! ## Lemmas on `signal2bsm` -/

/-- Below `2^31` the conversion `%d` writes an `unsigned` value in decimal. -/
theorem printf_d_small (n : Nat) (h : n < 2147483648) : printf_d n = toString n := by
  have hu : u32 n = n := Nat.mod_eq_of_lt (by omega)
  simp [printf_d, hu, h]

theorem signal2bsm_narrow_eq (sig : signal_t) (o : String) (depth : Nat)
    (h : sig.bit_length ≤ 16) :
    signal2bsm sig o depth = some (0, o ++ BE.render (narrowBlock sig)) := by
  have hn : ¬ (sig.bit_length > 16) := by omega
  simp only [signal2bsm, hn, if_false, memset, if_true,
    szBits_loop_empty _ (show sig.bit_length ≤ 64 by omega),
    printf_d_small sig.bit_length (by omega)]
  simp [BE.render, BB.render, narrowBlock, String.join, String.append_assoc]

theorem signal2bsm_wide_eq (sig : signal_t) (o : String) (depth : Nat)
    (h : 16 < sig.bit_length) (h64 : sig.bit_length ≤ 64) :
    signal2bsm sig o depth
      = some (0, o ++ BE.render (lsbBlock sig)
          ++ BE.render (msbBlock sig (markers sig.bit_length))) := by
  have hn : sig.bit_length > 16 := h
  have hm : szBits_loop (sig.bit_length - 16) (markers 16) = some (markers sig.bit_length) := by
    have := szBits_loop_markers (sig.bit_length - 16) 15 (by omega)
    rw [this]
    congr 2
    omega
  simp only [signal2bsm, hn, if_true, memset, szBits_loop_empty 16 (by omega), hm,
    printf_d_small 16 (by omega), printf_d_small (sig.bit_length - 16) (by omega)]
  simp [BE.render, BB.render, lsbBlock, msbBlock, String.join, String.append_assoc]

theorem markerCount_markers (n : Nat) : markerCount (markers n) = n := by
  cases n with
  | zero => rfl
  | succ n =>
    induction n with
    | zero => rfl
    | succ n ih =>
      rw [markers_succ_succ]
      simp only [markerCount, String.toList, String.data_append, List.count_append] at ih ⊢
      rw [ih]
      rfl

/-! ## Lemmas on the second walk -/

theorem signal2bsm_in_range (sig : signal_t) (o : String) (depth : Nat)
    (h : sig.bit_length ≤ 64) : ∃ o1, signal2bsm sig o depth = some (0, o1) := by
  by_cases hn : sig.bit_length ≤ 16
  · exact ⟨_, signal2bsm_narrow_eq sig o depth hn⟩
  · exact ⟨_, signal2bsm_wide_eq sig o depth (by omega) h⟩

theorem msg2bsm_gap_in_range (sig : signal_t) (last_bit : Nat) (o : String) (log : call_log)
    (depth : Nat) (h : sig.start_bit ≤ 64) :
    ∃ o1, msg2bsm_gap sig last_bit o log depth
      = some (0, o1, log ++
          (if sig.start_bit > last_bit then
            [(call_site.filler, unknownsig last_bit sig.start_bit)] else [])) := by
  unfold msg2bsm_gap
  by_cases hg : last_bit < sig.start_bit
  · obtain ⟨o1, ho1⟩ := signal2bsm_in_range (unknownsig last_bit sig.start_bit) o (depth + 1)
      (by simp only [unknownsig]; omega)
    refine ⟨o1, ?_⟩
    simp [hg, ho1]
  · refine ⟨o, ?_⟩
    simp [hg]

/-- The second walk on signals within the asserted ranges: it returns, its return value
is -1 exactly when a second multiplexor is met, and the calls it adds to the record are
the filler plan of the plain signals met before that point. -/
theorem msg2bsm_second_walk_in_range (F : BsmFormats) (depth : Nat) (sigs : List signal_t) :
    ∀ (last_bit : Nat) (multiplexor : Option signal_t) (o : String) (log : call_log),
      (∀ s ∈ sigs, signal_in_range s) →
      ∃ o1, msg2bsm_second_walk F depth sigs last_bit multiplexor o log
        = some ((if hasSecondMultiplexor sigs multiplexor.isSome then -1 else 0), o1,
            log ++ fillerPlan
              ((beforeSecondMultiplexor sigs multiplexor.isSome).filter is_plain) last_bit) := by
  induction sigs with
  | nil =>
    intro last_bit multiplexor o log _
    exact ⟨o ++ F.BSM_MESSAGE_SUFFIX, by
      simp [msg2bsm_second_walk, hasSecondMultiplexor, beforeSecondMultiplexor, fillerPlan]⟩
  | cons sig rest ih =>
    intro last_bit multiplexor o log hr
    have hsig : signal_in_range sig := hr sig (List.mem_cons_self _ _)
    have hrest : ∀ s ∈ rest, signal_in_range s := fun s hs => hr s (List.mem_cons_of_mem _ hs)
    by_cases hm : sig.is_multiplexor = true
    · by_cases hs : multiplexor.isSome = true
      · exact ⟨o, by simp [msg2bsm_second_walk, hasSecondMultiplexor, beforeSecondMultiplexor,
          hm, hs, fillerPlan]⟩
      · obtain ⟨o1, ho1⟩ := ih last_bit (some sig) o log hrest
        refine ⟨o1, ?_⟩
        simp only [Bool.not_eq_true] at hs
        simp only [msg2bsm_second_walk, hasSecondMultiplexor, beforeSecondMultiplexor, hm, hs,
          if_true, Bool.false_eq_true, if_false, ho1, Option.isSome_some, is_plain,
          List.filter_cons, Bool.not_true, Bool.false_and]
    · simp only [Bool.not_eq_true] at hm
      by_cases hx : sig.is_multiplexed = true
      · obtain ⟨o1, ho1⟩ := ih last_bit multiplexor o log hrest
        refine ⟨o1, ?_⟩
        simp only [msg2bsm_second_walk, hasSecondMultiplexor, beforeSecondMultiplexor, hm, hx,
          if_true, Bool.false_eq_true, if_false, ho1, is_plain,
          List.filter_cons, Bool.not_true, Bool.and_false]
      · simp only [Bool.not_eq_true] at hx
        obtain ⟨o1, ho1⟩ := msg2bsm_gap_in_range sig last_bit o log depth hsig.1
        obtain ⟨o2, ho2⟩ := signal2bsm_in_range sig o1 (depth + 1) hsig.2
        have hu : u32 (sig.start_bit + sig.bit_length) = sig.start_bit + sig.bit_length := by
          have h1 := hsig.1
          have h2 := hsig.2
          unfold u32
          exact Nat.mod_eq_of_lt (by omega)
        obtain ⟨o3, ho3⟩ := ih (sig.start_bit + sig.bit_length) multiplexor o2
          (log ++ (if sig.start_bit > last_bit then
            [(call_site.filler, unknownsig last_bit sig.start_bit)] else [])
            ++ [(call_site.real, sig)]) hrest
        refine ⟨o3, ?_⟩
        simp only [msg2bsm_second_walk, hasSecondMultiplexor, beforeSecondMultiplexor, hm, hx,
          Bool.false_eq_true, if_false, ho1, ho2, hu, is_plain, List.filter_cons,
          Bool.not_false, Bool.and_self, if_true, fillerPlan]
        simpa [unknownsig, List.append_assoc] using ho3

theorem realCalls_fillerPlan (sigs : List signal_t) :
    ∀ last_bit : Nat, realCalls (fillerPlan sigs last_bit) = sigs := by
  induction sigs with
  | nil => intro _; rfl
  | cons sig rest ih =>
    intro last_bit
    have := ih (sig.start_bit + sig.bit_length)
    unfold realCalls at this ⊢
    by_cases hg : sig.start_bit > last_bit
    · simp [fillerPlan, hg, this]
    · simp [fillerPlan, hg, this]

theorem hasSecondMultiplexor_iff (sigs : List signal_t) :
    ∀ seen : Bool, hasSecondMultiplexor sigs seen = true
      ↔ 1 < multiplexorCount sigs + (if seen then 1 else 0) := by
  induction sigs with
  | nil => intro seen; cases seen <;> simp [hasSecondMultiplexor, multiplexorCount]
  | cons sig rest ih =>
    intro seen
    have ht := ih true
    have hs := ih seen
    simp only [multiplexorCount, List.countP_cons] at ht hs ⊢
    by_cases hm : sig.is_multiplexor = true
    · cases seen
      · simp only [hasSecondMultiplexor, hm, if_true, Bool.false_eq_true, if_false, ht]
      · simp only [hasSecondMultiplexor, hm, if_true]
        constructor
        · intro _; omega
        · intro _; trivial
    · simp only [hasSecondMultiplexor, hm, if_false, hs, Bool.false_eq_true]
      constructor <;> intro h <;> omega

/-- On signals within the asserted ranges `msg2bsm` returns; it returns -1 exactly when
the message holds a second multiplexor, and its calls follow the filler plan. -/
theorem msg2bsm_in_range (F : BsmFormats) (msg : can_msg_t) (o : String) (depth : Nat)
    (h : ∀ s ∈ msg.signals, signal_in_range s) :
    ∃ o1, msg2bsm F msg o depth
      = some ((if hasSecondMultiplexor msg.signals false then -1 else 0), o1,
          fillerPlan ((beforeSecondMultiplexor msg.signals false).filter is_plain) 0) := by
  obtain ⟨o1, ho1⟩ := msg2bsm_second_walk_in_range F depth msg.signals 0 none
    (indent o depth ++ F.BSM_MESSAGE_PREFIX msg.name msg.id msg.id (msg2bsm_padding_size msg))
    [] h
  exact ⟨o1, by simpa [msg2bsm] using ho1⟩

theorem dbc2bsm_loop_second_multiplexor (F : BsmFormats) (msgs : List can_msg_t) :
    ∀ output : String,
      (∀ m ∈ msgs, ∀ s ∈ m.signals, signal_in_range s) →
      (∃ m ∈ msgs, 1 < multiplexorCount m.signals) →
      ∃ o1, dbc2bsm_loop F msgs output = some (-1, o1) := by
  induction msgs with
  | nil => intro _ _ h; obtain ⟨m, hm, _⟩ := h; simp at hm
  | cons msg rest ih =>
    intro output hr hex
    obtain ⟨o1, ho1⟩ := msg2bsm_in_range F msg output 1 (hr msg (List.mem_cons_self _ _))
    by_cases h2 : hasSecondMultiplexor msg.signals false = true
    · refine ⟨o1, ?_⟩
      simp [dbc2bsm_loop, ho1, h2]
    · have hrest : ∃ m ∈ rest, 1 < multiplexorCount m.signals := by
        obtain ⟨m, hm, hc⟩ := hex
        rcases List.mem_cons.mp hm with hmm | hmm
        · subst hmm
          exact absurd ((hasSecondMultiplexor_iff m.signals false).mpr (by simpa using hc)) h2
        · exact ⟨m, hmm, hc⟩
      obtain ⟨o2, ho2⟩ := ih o1 (fun m hm => hr m (List.mem_cons_of_mem _ hm)) hrest
      refine ⟨o2, ?_⟩
      simp [dbc2bsm_loop, ho1, h2, ho2]

/-! ## Lemmas on the signal sort of `ast2msg` -/

theorem ast2msg_bubble_perm (l : List signal_t) :
    ∀ a : signal_t, (ast2msg_bubble a l).1.Perm (a :: l) := by
  induction l with
  | nil => intro a; simp [ast2msg_bubble]
  | cons b rest ih =>
    intro a
    by_cases h : a.start_bit > b.start_bit
    · simp only [ast2msg_bubble, h, if_true]
      exact ((ih a).cons b).trans (List.Perm.swap a b rest)
    · simp only [ast2msg_bubble, h, if_false]
      exact (ih b).cons a

theorem ast2msg_bubble_startingAt (k : Nat) (l : List signal_t) :
    ∀ a : signal_t, startingAt k (ast2msg_bubble a l).1 = startingAt k (a :: l) := by
  induction l with
  | nil => intro a; simp [ast2msg_bubble]
  | cons b rest ih =>
    intro a
    by_cases h : a.start_bit > b.start_bit
    · have iha := ih a
      simp only [startingAt] at iha ⊢
      simp only [ast2msg_bubble, h, if_true, List.filter_cons, iha]
      by_cases ha : a.start_bit = k <;> by_cases hb : b.start_bit = k <;> simp [ha, hb]
      omega
    · have ihb := ih b
      simp only [startingAt] at ihb ⊢
      simp only [ast2msg_bubble, h, if_false, List.filter_cons, ihb]

theorem ast2msg_bubble_inversions (l : List signal_t) :
    ∀ a : signal_t,
      inversions (ast2msg_bubble a l).1 + (if (ast2msg_bubble a l).2 then 1 else 0)
        ≤ inversions (a :: l) := by
  induction l with
  | nil => intro a; simp [ast2msg_bubble, inversions]
  | cons b rest ih =>
    intro a
    by_cases h : a.start_bit > b.start_bit
    · have iha := ih a
      have hp := (ast2msg_bubble_perm rest a).countP_eq (fun c => b.start_bit > c.start_bit)
      have hba : ¬ (b.start_bit > a.start_bit) := by omega
      simp only [ast2msg_bubble, h, if_true, inversions, hp, List.countP_cons, hba,
        decide_True, decide_False, Bool.false_eq_true, if_false] at iha ⊢
      omega
    · have ihb := ih b
      have hp := (ast2msg_bubble_perm rest b).countP_eq (fun c => a.start_bit > c.start_bit)
      simp only [ast2msg_bubble, h, if_false, inversions, hp, List.countP_cons] at ihb ⊢
      omega

theorem ast2msg_bubble_no_flip (l : List signal_t) :
    ∀ a : signal_t, (ast2msg_bubble a l).2 = false →
      (ast2msg_bubble a l).1 = a :: l ∧ startBitSorted (a :: l) := by
  induction l with
  | nil => intro a _; simp [ast2msg_bubble, startBitSorted]
  | cons b rest ih =>
    intro a hf
    by_cases h : a.start_bit > b.start_bit
    · simp [ast2msg_bubble, h] at hf
    · simp only [ast2msg_bubble, h, if_false] at hf ⊢
      obtain ⟨he, hs⟩ := ih b hf
      refine ⟨by rw [he], ?_⟩
      unfold startBitSorted at hs ⊢
      refine List.pairwise_cons.mpr ⟨?_, hs⟩
      intro c hc
      rcases List.mem_cons.mp hc with hcb | hcr
      · subst hcb; omega
      · have := (List.pairwise_cons.mp hs).1 c hcr
        omega

theorem ast2msg_bubble_sorted (l : List signal_t) :
    ∀ a : signal_t, startBitSorted (a :: l) → ast2msg_bubble a l = (a :: l, false) := by
  induction l with
  | nil => intro a _; rfl
  | cons b rest ih =>
    intro a hs
    unfold startBitSorted at hs
    have hab : ¬ (a.start_bit > b.start_bit) := by
      have := (List.pairwise_cons.mp hs).1 b (List.mem_cons_self _ _)
      omega
    have hb := ih b (List.pairwise_cons.mp hs).2
    simp [ast2msg_bubble, hab, hb]

theorem orderedInsert_comm (a b : signal_t) (h : b.start_bit < a.start_bit)
    (l : List signal_t) :
    List.orderedInsert (fun x y : signal_t => x.start_bit ≤ y.start_bit) a
        (List.orderedInsert (fun x y : signal_t => x.start_bit ≤ y.start_bit) b l)
      = List.orderedInsert (fun x y : signal_t => x.start_bit ≤ y.start_bit) b
        (List.orderedInsert (fun x y : signal_t => x.start_bit ≤ y.start_bit) a l) := by
  induction l with
  | nil =>
    have h1 : ¬ (a.start_bit ≤ b.start_bit) := by omega
    have h2 : b.start_bit ≤ a.start_bit := by omega
    simp [List.orderedInsert, h1, h2]
  | cons c rest ih =>
    have h1 : ¬ (a.start_bit ≤ b.start_bit) := by omega
    have h2 : b.start_bit ≤ a.start_bit := by omega
    by_cases hac : a.start_bit ≤ c.start_bit
    · have hbc : b.start_bit ≤ c.start_bit := by omega
      simp [List.orderedInsert, h1, h2, hac, hbc]
    · by_cases hbc : b.start_bit ≤ c.start_bit
      · simp [List.orderedInsert, h1, hac, hbc]
      · simp [List.orderedInsert, hac, hbc, ih]

theorem ast2msg_bubble_stableSort (l : List signal_t) :
    ∀ a : signal_t,
      stableSortByStartBit (ast2msg_bubble a l).1 = stableSortByStartBit (a :: l) := by
  induction l with
  | nil => intro a; rfl
  | cons b rest ih =>
    intro a
    by_cases h : a.start_bit > b.start_bit
    · have iha := ih a
      simp only [stableSortByStartBit, List.insertionSort] at iha ⊢
      simp only [ast2msg_bubble, h, if_true, List.insertionSort, iha]
      exact (orderedInsert_comm a b h _).symm
    · have ihb := ih b
      simp only [stableSortByStartBit, List.insertionSort] at ihb ⊢
      simp only [ast2msg_bubble, h, if_false, List.insertionSort, ihb]

theorem stableSort_of_sorted (l : List signal_t) (h : startBitSorted l) :
    stableSortByStartBit l = l :=
  List.Sorted.insertionSort_eq h

theorem ast2msg_pass_perm (l : List signal_t) : (ast2msg_pass l).1.Perm l := by
  cases l with
  | nil => exact List.Perm.refl _
  | cons a rest => exact ast2msg_bubble_perm rest a

theorem ast2msg_pass_startingAt (k : Nat) (l : List signal_t) :
    startingAt k (ast2msg_pass l).1 = startingAt k l := by
  cases l with
  | nil => rfl
  | cons a rest => exact ast2msg_bubble_startingAt k rest a

theorem ast2msg_pass_stableSort (l : List signal_t) :
    stableSortByStartBit (ast2msg_pass l).1 = stableSortByStartBit l := by
  cases l with
  | nil => rfl
  | cons a rest => exact ast2msg_bubble_stableSort rest a

/-- A run of the `for` loop never adds out-of-order pairs, and removes at least one of
them when it swaps. -/
theorem ast2msg_pass_inversions (l : List signal_t) :
    inversions (ast2msg_pass l).1 + (if (ast2msg_pass l).2 then 1 else 0) ≤ inversions l := by
  cases l with
  | nil => simp [ast2msg_pass, inversions]
  | cons a rest => exact ast2msg_bubble_inversions rest a

theorem ast2msg_pass_no_flip (l : List signal_t) (h : (ast2msg_pass l).2 = false) :
    (ast2msg_pass l).1 = l ∧ startBitSorted l := by
  cases l with
  | nil => exact ⟨rfl, List.Pairwise.nil⟩
  | cons a rest => exact ast2msg_bubble_no_flip rest a h

theorem ast2msg_pass_sorted (l : List signal_t) (h : startBitSorted l) :
    ast2msg_pass l = (l, false) := by
  cases l with
  | nil => rfl
  | cons a rest => exact ast2msg_bubble_sorted rest a h

/-- With more runs allowed than there are out-of-order pairs, the `do ... while` loop
ends, and its result is an ascending permutation that keeps the order of signals with
equal `start_bit`. -/
theorem ast2msg_loop_spec (fuel : Nat) :
    ∀ l : List signal_t, inversions l < fuel →
      ∃ r, ast2msg_loop fuel l = some r ∧ r.Perm l ∧ startBitSorted r ∧
        (∀ k, startingAt k r = startingAt k l) ∧
        stableSortByStartBit r = stableSortByStartBit l := by
  induction fuel with
  | zero => intro l h; omega
  | succ fuel ih =>
    intro l h
    by_cases hf : (ast2msg_pass l).2 = true
    · have hi := ast2msg_pass_inversions l
      simp only [hf, if_true] at hi
      obtain ⟨r, hr, hp, hs, hk, hi2⟩ := ih (ast2msg_pass l).1 (by omega)
      refine ⟨r, ?_, hp.trans (ast2msg_pass_perm l), hs, ?_, ?_⟩
      · simp [ast2msg_loop, hf, hr]
      · intro k; rw [hk k, ast2msg_pass_startingAt]
      · rw [hi2, ast2msg_pass_stableSort]
    · simp only [Bool.not_eq_true] at hf
      obtain ⟨he, hs⟩ := ast2msg_pass_no_flip l hf
      refine ⟨l, ?_, List.Perm.refl _, hs, fun _ => rfl, rfl⟩
      simp [ast2msg_loop, hf, he]

theorem ast2msg_sort_spec (fuel : Nat) (l : List signal_t) (h : inversions l < fuel) :
    ∃ r, ast2msg_sort fuel l = some r ∧ r.Perm l ∧ startBitSorted r ∧
      (∀ k, startingAt k r = startingAt k l) ∧ r = stableSortByStartBit l := by
  by_cases hl : l.length > 1
  · obtain ⟨r, hr, hp, hs, hk, hi⟩ := ast2msg_loop_spec fuel l h
    refine ⟨r, by simp [ast2msg_sort, hl, hr], hp, hs, hk, ?_⟩
    rw [← hi, stableSort_of_sorted r hs]
  · have hs : startBitSorted l := by
      unfold startBitSorted
      match l, hl with
      | [], _ => exact List.Pairwise.nil
      | [a], _ => exact List.pairwise_singleton _ _
      | a :: b :: rest, hl => simp at hl
    exact ⟨l, by simp [ast2msg_sort, hl], List.Perm.refl _, hs, fun _ => rfl,
      (stableSort_of_sorted l hs).symm⟩

theorem ast2msg_sort_of_sorted (fuel : Nat) (l : List signal_t) (h : startBitSorted l)
    (hfuel : 0 < fuel) : ast2msg_sort fuel l = some l := by
  unfold ast2msg_sort
  split
  · obtain ⟨n, rfl⟩ : ∃ n, fuel = n + 1 := ⟨fuel - 1, by omega⟩
    simp [ast2msg_loop, ast2msg_pass_sorted l h]
  · rfl

/-! ## Lemmas on the text of the second walk -/

theorem logText_append (l1 l2 : call_log) : logText (l1 ++ l2) = logText l1 ++ logText l2 := by
  induction l1 with
  | nil => simp [logText]
  | cons c rest ih => simp [logText, ih, String.append_assoc]

theorem signal2bsm_text (sig : signal_t) (o : String) (depth : Nat)
    (h : sig.bit_length ≤ 64) : signal2bsm sig o depth = some (0, o ++ blockText sig) := by
  by_cases hn : sig.bit_length ≤ 16
  · simp [blockText, hn, signal2bsm_narrow_eq sig o depth hn]
  · rw [signal2bsm_wide_eq sig o depth (by omega) h]
    simp [blockText, hn, String.append_assoc]

theorem msg2bsm_gap_text (sig : signal_t) (last_bit : Nat) (o : String) (log : call_log)
    (depth : Nat) (h : sig.start_bit ≤ 64) :
    msg2bsm_gap sig last_bit o log depth
      = some (0,
          o ++ logText (if sig.start_bit > last_bit then
            [(call_site.filler, unknownsig last_bit sig.start_bit)] else []),
          log ++ (if sig.start_bit > last_bit then
            [(call_site.filler, unknownsig last_bit sig.start_bit)] else [])) := by
  unfold msg2bsm_gap
  by_cases hg : last_bit < sig.start_bit
  · have ht := signal2bsm_text (unknownsig last_bit sig.start_bit) o (depth + 1)
      (by simp only [unknownsig]; omega)
    simp [hg, ht, logText]
  · simp [hg, logText]

/-- The second walk on signals within the asserted ranges, with the text it writes: the
blocks of its calls, followed by the message suffix unless a second multiplexor is met. -/
theorem msg2bsm_second_walk_text (F : BsmFormats) (depth : Nat) (sigs : List signal_t) :
    ∀ (last_bit : Nat) (multiplexor : Option signal_t) (o : String) (log : call_log),
      (∀ s ∈ sigs, signal_in_range s) →
      msg2bsm_second_walk F depth sigs last_bit multiplexor o log
        = some ((if hasSecondMultiplexor sigs multiplexor.isSome then -1 else 0),
            o ++ logText (fillerPlan
                ((beforeSecondMultiplexor sigs multiplexor.isSome).filter is_plain) last_bit)
              ++ (if hasSecondMultiplexor sigs multiplexor.isSome then ""
                  else F.BSM_MESSAGE_SUFFIX),
            log ++ fillerPlan
              ((beforeSecondMultiplexor sigs multiplexor.isSome).filter is_plain) last_bit) := by
  induction sigs with
  | nil =>
    intro last_bit multiplexor o log _
    simp [msg2bsm_second_walk, hasSecondMultiplexor, beforeSecondMultiplexor, fillerPlan,
      logText]
  | cons sig rest ih =>
    intro last_bit multiplexor o log hr
    have hsig : signal_in_range sig := hr sig (List.mem_cons_self _ _)
    have hrest : ∀ s ∈ rest, signal_in_range s := fun s hs => hr s (List.mem_cons_of_mem _ hs)
    by_cases hm : sig.is_multiplexor = true
    · by_cases hs : multiplexor.isSome = true
      · simp [msg2bsm_second_walk, hasSecondMultiplexor, beforeSecondMultiplexor,
          hm, hs, fillerPlan, logText]
      · simp only [Bool.not_eq_true] at hs
        have ho1 := ih last_bit (some sig) o log hrest
        simp only [msg2bsm_second_walk, hasSecondMultiplexor, beforeSecondMultiplexor, hm, hs,
          if_true, Bool.false_eq_true, if_false, ho1, Option.isSome_some, is_plain,
          List.filter_cons, Bool.not_true, Bool.false_and]
    · simp only [Bool.not_eq_true] at hm
      by_cases hx : sig.is_multiplexed = true
      · have ho1 := ih last_bit multiplexor o log hrest
        simp only [msg2bsm_second_walk, hasSecondMultiplexor, beforeSecondMultiplexor, hm, hx,
          if_true, Bool.false_eq_true, if_false, ho1, is_plain,
          List.filter_cons, Bool.not_true, Bool.and_false]
      · simp only [Bool.not_eq_true] at hx
        have ho1 := msg2bsm_gap_text sig last_bit o log depth hsig.1
        have hu : u32 (sig.start_bit + sig.bit_length) = sig.start_bit + sig.bit_length := by
          have h1 := hsig.1
          have h2 := hsig.2
          unfold u32
          exact Nat.mod_eq_of_lt (by omega)
        simp only [msg2bsm_second_walk, hasSecondMultiplexor, beforeSecondMultiplexor, hm, hx,
          Bool.false_eq_true, if_false, ho1, signal2bsm_text sig _ (depth + 1) hsig.2, hu,
          is_plain, List.filter_cons, Bool.not_false, Bool.and_self, if_true, fillerPlan]
        rw [ih _ _ _ _ hrest]
        by_cases hg : sig.start_bit > last_bit
        · simp [hg, logText, logText_append, unknownsig, String.append_assoc,
            List.append_assoc]
        · simp [hg, logText, logText_append, String.append_assoc, List.append_assoc]

theorem beforeSecondMultiplexor_eq (sigs : List signal_t) :
    ∀ seen : Bool, hasSecondMultiplexor sigs seen = false →
      beforeSecondMultiplexor sigs seen = sigs := by
  induction sigs with
  | nil => intro _ _; rfl
  | cons sig rest ih =>
    intro seen h
    by_cases hm : sig.is_multiplexor = true
    · cases seen
      · simp only [hasSecondMultiplexor, hm, if_true, Bool.false_eq_true, if_false] at h
        simp [beforeSecondMultiplexor, hm, ih true h]
      · simp [hasSecondMultiplexor, hm] at h
    · simp only [hasSecondMultiplexor, hm, if_false, Bool.false_eq_true] at h
      simp [beforeSecondMultiplexor, hm, ih seen h]

/-- The whole of `msg2bsm` on signals within the asserted ranges: return value, text
and calls. -/
theorem msg2bsm_text (F : BsmFormats) (msg : can_msg_t) (o : String) (depth : Nat)
    (h : ∀ s ∈ msg.signals, signal_in_range s) :
    msg2bsm F msg o depth
      = some ((if hasSecondMultiplexor msg.signals false then -1 else 0),
          indent o depth
            ++ F.BSM_MESSAGE_PREFIX msg.name msg.id msg.id (msg2bsm_padding_size msg)
            ++ logText (fillerPlan
                ((beforeSecondMultiplexor msg.signals false).filter is_plain) 0)
            ++ (if hasSecondMultiplexor msg.signals false then "" else F.BSM_MESSAGE_SUFFIX),
          fillerPlan ((beforeSecondMultiplexor msg.signals false).filter is_plain) 0) := by
  have hw := msg2bsm_second_walk_text F depth msg.signals 0 none
    (indent o depth ++ F.BSM_MESSAGE_PREFIX msg.name msg.id msg.id (msg2bsm_padding_size msg))
    [] h
  simpa [msg2bsm] using hw

/-! ## Lemmas on `print_escaped` -/

theorem print_escaped_loop_eq (cs : List Char) :
    ∀ o : String, print_escaped_loop cs o = (0, o ++ String.mk (escapeChars cs)) := by
  induction cs with
  | nil => intro o; simp [print_escaped_loop, escapeChars, String.ext_iff]
  | cons c rest ih =>
    intro o
    simp only [print_escaped_loop, escapeChars, ih]
    refine Prod.ext rfl (String.ext ?_)
    split_ifs <;> simp [String.data_append, String.push]

theorem escapedText_eq (s : String) : escapedText s = String.mk (escapeChars s.toList) := by
  simp [escapedText, print_escaped, print_escaped_loop_eq, String.ext_iff]

theorem reverseTableChars_escapeChars (cs : List Char) :
    reverseTableChars (escapeChars cs) = cs := by
  induction cs with
  | nil => simp [escapeChars, reverseTableChars]
  | cons c rest ih =>
    simp only [escapeChars]
    split_ifs with h1 h2 h3 h4 h5
    · simp [reverseTableChars, ih, h1]
    · simp [reverseTableChars, ih, h2]
    · simp [reverseTableChars, ih, h3]
    · simp [reverseTableChars, ih, h4]
    · simp [reverseTableChars, ih, h5]
    · simp [reverseTableChars, ih, h5]

theorem reverseTable_escapedText (s : String) : reverseTable (escapedText s) = s := by
  rw [escapedText_eq]
  simp [reverseTable, reverseTableChars_escapeChars]

theorem escapeChars_clean (cs : List Char) (h : ∀ c ∈ cs, isTableChar c = false) :
    escapeChars cs = cs := by
  induction cs with
  | nil => rfl
  | cons c rest ih =>
    have hc := h c (List.mem_cons_self _ _)
    simp only [isTableChar, Bool.or_eq_false_iff, decide_eq_false_iff_not] at hc
    obtain ⟨⟨⟨⟨h1, h2⟩, h3⟩, h4⟩, h5⟩ := hc
    simp [escapeChars, h1, h2, h3, h4, h5, ih (fun d hd => h d (List.mem_cons_of_mem _ hd))]

theorem escapedText_clean (s : String) (h : ∀ c ∈ s.toList, isTableChar c = false) :
    escapedText s = s := by
  rw [escapedText_eq, escapeChars_clean _ h]
  rfl

/-! ## Lemmas on model building -/

/-- Every signal `ast2signal` builds lies within the ranges of its two assertions. -/
theorem ast2signal_in_range (ast : signal_ast) (sig : signal_t)
    (h : ast2signal ast = some sig) : signal_in_range sig := by
  unfold ast2signal at h
  cases hs : sscanf_u ast.startbit with
  | none => simp [hs] at h
  | some start_bit =>
    by_cases h1 : start_bit ≤ 64
    · cases hl : sscanf_u ast.length with
      | none => simp [hs, hl, h1] at h
      | some bit_length =>
        by_cases h2 : bit_length ≤ 64
        · simp only [hs, hl, h1, h2, not_true, if_false] at h
          split_ifs at h <;>
          · simp only [Option.some.injEq] at h
            subst h
            exact ⟨h1, h2⟩
        · simp [hs, hl, h1, h2] at h
    · simp [hs, h1] at h

/-! ## Lemmas on the stream: a call only appends to the text before it -/

theorem signal2bsm_frame (sig : signal_t) (o : String) (depth : Nat) :
    signal2bsm sig o depth
      = (signal2bsm sig "" depth).map (fun p => (p.1, o ++ p.2)) := by
  unfold signal2bsm
  by_cases h : sig.bit_length > 16
  · simp only [h, if_true]
    cases szBits_loop 16 (memset "" 128 0) with
    | none => rfl
    | some szBits =>
      simp only []
      cases szBits_loop (sig.bit_length - 16) (memset szBits 128 0) with
      | none => rfl
      | some szBits2 => simp [String.append_assoc]
  · simp only [h, if_false]
    cases szBits_loop sig.bit_length (memset "" 128 0) with
    | none => rfl
    | some szBits => simp [String.append_assoc]

theorem msg2bsm_gap_frame (sig : signal_t) (last_bit : Nat) (o : String) (log : call_log)
    (depth : Nat) :
    msg2bsm_gap sig last_bit o log depth
      = (msg2bsm_gap sig last_bit "" [] depth).map
          (fun p => (p.1, o ++ p.2.1, log ++ p.2.2)) := by
  unfold msg2bsm_gap
  by_cases hg : last_bit < sig.start_bit
  · simp only [hg, if_true]
    rw [signal2bsm_frame _ o]
    cases signal2bsm (unknownsig last_bit sig.start_bit) "" (depth + 1) with
    | none => rfl
    | some p => simp
  · simp [hg]

theorem msg2bsm_second_walk_frame (F : BsmFormats) (depth : Nat) (sigs : List signal_t) :
    ∀ (last_bit : Nat) (multiplexor : Option signal_t) (o : String) (log : call_log),
      msg2bsm_second_walk F depth sigs last_bit multiplexor o log
        = (msg2bsm_second_walk F depth sigs last_bit multiplexor "" []).map
            (fun p => (p.1, o ++ p.2.1, log ++ p.2.2)) := by
  induction sigs with
  | nil => intro last_bit multiplexor o log; simp [msg2bsm_second_walk]
  | cons sig rest ih =>
    intro last_bit multiplexor o log
    by_cases hm : sig.is_multiplexor = true
    · by_cases hs : multiplexor.isSome = true
      · simp [msg2bsm_second_walk, hm, hs]
      · simp only [Bool.not_eq_true] at hs
        simp only [msg2bsm_second_walk, hm, hs, if_true, Bool.false_eq_true, if_false]
        exact ih last_bit (some sig) o log
    · simp only [Bool.not_eq_true] at hm
      by_cases hx : sig.is_multiplexed = true
      · simp only [msg2bsm_second_walk, hm, hx, if_true, Bool.false_eq_true, if_false]
        exact ih last_bit multiplexor o log
      · simp only [Bool.not_eq_true] at hx
        simp only [msg2bsm_second_walk, hm, hx, Bool.false_eq_true, if_false]
        rw [msg2bsm_gap_frame sig last_bit o log]
        cases msg2bsm_gap sig last_bit "" [] depth with
        | none => rfl
        | some p =>
          obtain ⟨r, og, lg⟩ := p
          simp only [Option.map_some']
          by_cases hr : r < 0
          · simp [hr]
          · simp only [hr, if_false]
            rw [signal2bsm_frame sig (o ++ og), signal2bsm_frame sig og]
            cases signal2bsm sig "" (depth + 1) with
            | none => rfl
            | some q =>
              obtain ⟨r2, os⟩ := q
              simp only [Option.map_some']
              by_cases hr2 : r2 < 0
              · simp [hr2, String.append_assoc, List.append_assoc]
              · simp only [hr2, if_false]
                rw [ih _ _ (o ++ og ++ os) (log ++ lg ++ [(call_site.real, sig)]),
                  ih _ _ (og ++ os) (lg ++ [(call_site.real, sig)])]
                cases msg2bsm_second_walk F depth rest
                    (u32 (sig.start_bit + sig.bit_length)) multiplexor "" [] with
                | none => rfl
                | some w => simp [String.append_assoc, List.append_assoc]

theorem msg2bsm_frame (F : BsmFormats) (msg : can_msg_t) (o : String) (depth : Nat) :
    msg2bsm F msg o depth
      = (msg2bsm F msg "" depth).map (fun p => (p.1, o ++ p.2.1, p.2.2)) := by
  unfold msg2bsm
  simp only []
  rw [msg2bsm_second_walk_frame F depth msg.signals 0 none
      (indent o depth ++ F.BSM_MESSAGE_PREFIX msg.name msg.id msg.id (msg2bsm_padding_size msg)),
    msg2bsm_second_walk_frame F depth msg.signals 0 none
      (indent "" depth ++ F.BSM_MESSAGE_PREFIX msg.name msg.id msg.id
        (msg2bsm_padding_size msg))]
  cases msg2bsm_second_walk F depth msg.signals 0 none "" [] with
  | none => rfl
  | some w => simp [indent, String.append_assoc]

theorem dbc2bsm_loop_frame (F : BsmFormats) (msgs : List can_msg_t) :
    ∀ output : String,
      dbc2bsm_loop F msgs output
        = (dbc2bsm_loop F msgs "").map (fun p => (p.1, output ++ p.2)) := by
  induction msgs with
  | nil => intro output; simp [dbc2bsm_loop]
  | cons msg rest ih =>
    intro output
    simp only [dbc2bsm_loop]
    rw [msg2bsm_frame F msg output]
    cases msg2bsm F msg "" 1 with
    | none => rfl
    | some p =>
      obtain ⟨r, w, lg⟩ := p
      simp only [Option.map_some']
      by_cases hr : r < 0
      · simp [hr]
      · simp only [hr, if_false]
        rw [ih (output ++ w), ih w]
        cases dbc2bsm_loop F rest "" with
        | none => rfl
        | some q => simp [String.append_assoc]

theorem dbc2bsm_loop_in_range (F : BsmFormats) (msgs : List can_msg_t) :
    ∀ output : String,
      (∀ m ∈ msgs, ∀ s ∈ m.signals, signal_in_range s) →
      (dbc2bsm_loop F msgs output).isSome = true := by
  induction msgs with
  | nil => intro output _; simp [dbc2bsm_loop]
  | cons msg rest ih =>
    intro output hr
    obtain ⟨o1, ho1⟩ := msg2bsm_in_range F msg output 1 (hr msg (List.mem_cons_self _ _))
    simp only [dbc2bsm_loop, ho1]
    split_ifs <;> first
      | rfl
      | exact ih o1 (fun m hm => hr m (List.mem_cons_of_mem _ hm))

/-! ## Lemmas on the covered bits -/

theorem emittedBits_fillerPlan (sigs : List signal_t) :
    ∀ last_bit : Nat, emittedBits (fillerPlan sigs last_bit) = coveredBits sigs last_bit := by
  induction sigs with
  | nil => intro _; rfl
  | cons sig rest ih =>
    intro last_bit
    have hrec := ih (sig.start_bit + sig.bit_length)
    unfold emittedBits at hrec ⊢
    by_cases hg : last_bit < sig.start_bit
    · have hg2 : sig.start_bit > last_bit := hg
      simp only [fillerPlan, coveredBits, hg, hg2, if_true, List.map_append, List.map_cons,
        List.map_nil, List.sum_append, List.sum_cons, List.sum_nil, hrec]
      omega
    · have hg2 : ¬ sig.start_bit > last_bit := hg
      simp only [fillerPlan, coveredBits, hg, hg2, if_false, List.map_append, List.map_cons,
        List.map_nil, List.sum_append, List.sum_cons, List.sum_nil, hrec]
      omega

/-- On signals within the asserted ranges the first walk accumulates the covered bits,
reduced to 32 bits. -/
theorem msg2bsm_first_walk_in_range (sigs : List signal_t) :
    ∀ last_bit padding_size : Nat,
      (∀ s ∈ sigs, signal_in_range s) → padding_size < 4294967296 →
      msg2bsm_first_walk sigs last_bit padding_size
        = u32 (padding_size + coveredBits sigs last_bit) := by
  induction sigs with
  | nil =>
    intro last_bit padding_size _ hp
    simp only [msg2bsm_first_walk, coveredBits, u32, Nat.add_zero]
    exact (Nat.mod_eq_of_lt hp).symm
  | cons sig rest ih =>
    intro last_bit padding_size hr hp
    have hsig : signal_in_range sig := hr sig (List.mem_cons_self _ _)
    have hrest : ∀ s ∈ rest, signal_in_range s := fun s hs => hr s (List.mem_cons_of_mem _ hs)
    have h1 := hsig.1
    have h2 := hsig.2
    have hu : u32 (sig.start_bit + sig.bit_length) = sig.start_bit + sig.bit_length :=
      Nat.mod_eq_of_lt (by omega)
    have hlt : ∀ n : Nat, u32 n < 4294967296 := fun n => Nat.mod_lt _ (by decide)
    simp only [msg2bsm_first_walk, coveredBits, hu]
    by_cases hg : last_bit < sig.start_bit
    · simp only [hg, if_true]
      rw [ih _ _ hrest (hlt _)]
      simp only [u32]
      omega
    · simp only [hg, if_false]
      rw [ih _ _ hrest (hlt _)]
      simp only [u32]
      omega

/-- For signals laid out one after the other, starting at or after `last_bit`, the
covered bits reach from `last_bit` to the end of the last signal. -/
theorem coveredBits_laidOut (sigs : List signal_t) :
    ∀ (last_bit : Nat) (last : signal_t),
      sigs.getLast? = some last →
      (∀ s ∈ sigs.head?, last_bit ≤ s.start_bit) →
      laidOutInOrder sigs →
      last_bit + coveredBits sigs last_bit = last.start_bit + last.bit_length := by
  induction sigs with
  | nil => intro _ _ h; simp at h
  | cons sig rest ih =>
    intro last_bit last hl hh hp
    have hle : last_bit ≤ sig.start_bit := hh sig (by simp)
    cases rest with
    | nil =>
      simp only [List.getLast?_singleton, Option.some.injEq] at hl
      subst hl
      simp only [coveredBits]
      split_ifs <;> omega
    | cons t rest2 =>
      have hl2 : (t :: rest2).getLast? = some last := by
        simpa [List.getLast?_cons_cons] using hl
      have hp2 := List.pairwise_cons.mp hp
      have hrec := ih (sig.start_bit + sig.bit_length) last hl2
        (by intro s hs; simp only [List.head?_cons, Option.mem_def, Option.some.injEq] at hs
            subst hs; exact hp2.1 _ (List.mem_cons_self _ _))
        hp2.2
      have hc : coveredBits (sig :: t :: rest2) last_bit
          = (if last_bit < sig.start_bit then sig.start_bit - last_bit else 0)
            + sig.bit_length + coveredBits (t :: rest2) (sig.start_bit + sig.bit_length) := rfl
      rw [hc]
      split_ifs <;> omega

theorem plain_signals_walk (sigs : List signal_t)
    (hp : ∀ s ∈ sigs, s.is_multiplexor = false ∧ s.is_multiplexed = false) :
    ∀ seen : Bool, hasSecondMultiplexor sigs seen = false ∧
      (beforeSecondMultiplexor sigs seen).filter is_plain = sigs := by
  induction sigs with
  | nil => intro _; exact ⟨rfl, rfl⟩
  | cons sig rest ih =>
    intro seen
    obtain ⟨hm, hx⟩ := hp sig (List.mem_cons_self _ _)
    obtain ⟨h1, h2⟩ := ih (fun s hs => hp s (List.mem_cons_of_mem _ hs)) seen
    constructor
    · simp [hasSecondMultiplexor, hm, h1]
    · simp [beforeSecondMultiplexor, hm, hx, is_plain, List.filter_cons]
      simpa [is_plain] using h2

/-! ## Lemmas on the contents of `szBits` -/

theorem szBits_states_length (n : Nat) :
    ∀ (szBits : String), ∀ s ∈ szBits_states n szBits, s.length ≤ szBits.length + 2 * n := by
  induction n with
  | zero => intro szBits s hs; simp [szBits_states] at hs
  | succ n ih =>
    intro szBits s hs
    have h1 : ",".length = 1 := rfl
    have h2 : "1".length = 1 := rfl
    by_cases hpos : szBits.length > 0
    · simp only [szBits_states, hpos, if_true, List.singleton_append, List.mem_cons] at hs
      rcases hs with hs | hs | hs
      · subst hs; rw [String.length_append]; omega
      · subst hs; rw [String.length_append, String.length_append]; omega
      · have := ih _ s hs
        rw [String.length_append, String.length_append] at this
        omega
    · simp only [szBits_states, hpos, if_false, List.nil_append, List.mem_cons] at hs
      rcases hs with hs | hs
      · subst hs; rw [String.length_append]; omega
      · have := ih _ s hs
        rw [String.length_append] at this
        omega

theorem getLast_getD_cons (a d : String) (l : List String) :
    (a :: l).getLast?.getD d = l.getLast?.getD a := by
  cases l with
  | nil => simp
  | cons b t =>
    rw [List.getLast?_cons_cons]
    cases h : (b :: t).getLast? with
    | none => exact absurd h (by simp)
    | some x => rfl

/-- While no content exceeds 127 characters every `strcat_s` call of the loop succeeds,
and the loop ends with the content built by the full appends. -/
theorem szBits_loop_eq_final (n : Nat) :
    ∀ (szBits : String), (∀ s ∈ szBits_states n szBits, s.length ≤ 127) →
      szBits_loop n szBits = some (szBits_final n szBits) := by
  induction n with
  | zero => intro szBits _; rfl
  | succ n ih =>
    intro szBits h
    have h1 : ",".length = 1 := rfl
    have h2 : "1".length = 1 := rfl
    by_cases hpos : szBits.length > 0
    · have ha : (szBits ++ ",").length ≤ 127 :=
        h _ (by simp [szBits_states, hpos])
      have hb : (szBits ++ "," ++ "1").length ≤ 127 :=
        h _ (by simp [szBits_states, hpos])
      have hrest : ∀ s ∈ szBits_states n (szBits ++ "," ++ "1"), s.length ≤ 127 :=
        fun s hs => h s (by simp [szBits_states, hpos, hs])
      rw [String.length_append] at ha
      have hb2 := hb
      rw [String.length_append] at hb2
      have hf1 : szBits.length + ",".length + 1 ≤ 128 := by omega
      have hf2 : (szBits ++ ",").length + "1".length + 1 ≤ 128 := by omega
      simp only [szBits_loop, hpos, if_true, strcat_s, hf1, hf2, ih _ hrest]
      simp [szBits_final, szBits_states, hpos, getLast_getD_cons]
    · have hb : (szBits ++ "1").length ≤ 127 :=
        h _ (by simp [szBits_states, hpos])
      have hrest : ∀ s ∈ szBits_states n (szBits ++ "1"), s.length ≤ 127 :=
        fun s hs => h s (by simp [szBits_states, hpos, hs])
      rw [String.length_append] at hb
      have hf2 : szBits.length + "1".length + 1 ≤ 128 := by omega
      simp only [szBits_loop, hpos, if_false, strcat_s, hf2, if_true, ih _ hrest]
      simp [szBits_final, szBits_states, hpos, getLast_getD_cons]

theorem szBits_final_16 : szBits_final 16 "" = markers 16 := by decide

/-- For a signal of at most 64 bits no content of `szBits` exceeds 127 characters. -/
theorem signal2bsm_szBits_length (sig : signal_t) (h : sig.bit_length ≤ 64) :
    ∀ s ∈ signal2bsm_szBits sig, s.length ≤ 127 := by
  intro s hs
  unfold signal2bsm_szBits at hs
  have hm : memset "" 128 0 = "" := rfl
  by_cases hw : sig.bit_length > 16
  · simp only [hw, if_true, hm, List.mem_append] at hs
    rcases hs with hs | hs
    · have := szBits_states_length 16 "" s hs
      have h0 : "".length = 0 := rfl
      omega
    · have hm2 : memset (szBits_final 16 "") 128 0 = markers 16 := by
        rw [szBits_final_16]; rfl
      rw [hm2] at hs
      have := szBits_states_length (sig.bit_length - 16) (markers 16) s hs
      have hl : (markers 16).length = 31 := markers_length 15
      omega
  · simp only [hw, if_false, hm] at hs
    have := szBits_states_length sig.bit_length "" s hs
    have h0 : "".length = 0 := rfl
    omega

/-! ## Claims on the padded size (first walk of `msg2bsm`) -/

/-- C1 (counterexample): a single signal with bits [0,40) makes `msg2bsm` report the
payload size 40, which is none of 8, 16, 24, 32. -/
theorem C1_padding_size_not_in_ladder :
    msg2bsm_padding_size (messageOf "M" 1 8 [plainSignal "S" 0 40]) = 40 ∧
      ¬ (msg2bsm_padding_size (messageOf "M" 1 8 [plainSignal "S" 0 40]) ∈ paddedSizes) := by
  decide

/-- C1 (amended): for every message whose sum of signal lengths and gap lengths, as the
first walk accumulates it, is at most 32, the payload size `msg2bsm` reports is one of
8, 16, 24, 32 and is the smallest of those four values that is at least the sum. -/
theorem C1_padding_size_ladder (msg : can_msg_t)
    (h : msg2bsm_first_walk msg.signals 0 0 ≤ 32) :
    msg2bsm_padding_size msg ∈ paddedSizes ∧
      msg2bsm_first_walk msg.signals 0 0 ≤ msg2bsm_padding_size msg ∧
      ∀ v ∈ paddedSizes, msg2bsm_first_walk msg.signals 0 0 ≤ v →
        msg2bsm_padding_size msg ≤ v :=
  msg2bsm_round_le_32 _ h

/-- C1 (witness): signals [0,8) and [12,17) accumulate 8 + 4 + 5 = 17 bits and the
reported size is 24. -/
theorem C1_padding_size_ladder_witness :
    msg2bsm_first_walk [plainSignal "A" 0 8, plainSignal "B" 12 5] 0 0 = 17 ∧
    msg2bsm_padding_size (messageOf "M" 1 8 [plainSignal "A" 0 8, plainSignal "B" 12 5]) = 24 ∧
    (msg2bsm_padding_size (messageOf "M" 1 8 [plainSignal "A" 0 8, plainSignal "B" 12 5])
        ∈ paddedSizes ∧
      msg2bsm_first_walk
          (messageOf "M" 1 8 [plainSignal "A" 0 8, plainSignal "B" 12 5]).signals 0 0
        ≤ msg2bsm_padding_size (messageOf "M" 1 8 [plainSignal "A" 0 8, plainSignal "B" 12 5]) ∧
      ∀ v ∈ paddedSizes,
        msg2bsm_first_walk
            (messageOf "M" 1 8 [plainSignal "A" 0 8, plainSignal "B" 12 5]).signals 0 0 ≤ v →
        msg2bsm_padding_size (messageOf "M" 1 8 [plainSignal "A" 0 8, plainSignal "B" 12 5]) ≤ v) :=
  ⟨by decide, by decide,
   C1_padding_size_ladder (messageOf "M" 1 8 [plainSignal "A" 0 8, plainSignal "B" 12 5])
     (by decide)⟩

/-- C2: for every message whose covered bits (signal lengths plus gaps, as the
specification sums them) are at most 32, the padded size `msg2bsm` reports is the
least element of 8, 16, 24, 32 that is at least that sum. -/
theorem C2_padding_size_least (msg : can_msg_t) (h : coveredBits msg.signals 0 ≤ 32) :
    msg2bsm_padding_size msg ∈ paddedSizes ∧
      coveredBits msg.signals 0 ≤ msg2bsm_padding_size msg ∧
      ∀ v ∈ paddedSizes, coveredBits msg.signals 0 ≤ v → msg2bsm_padding_size msg ≤ v := by
  have hw : msg2bsm_first_walk msg.signals 0 0 = coveredBits msg.signals 0 := by
    rw [msg2bsm_first_walk_eq msg.signals 0 0 (by omega) (by omega)]
    omega
  unfold msg2bsm_padding_size
  rw [hw]
  exact msg2bsm_round_le_32 _ h

/-- C2 (witness): signals [0,3) and [5,14) cover 3 + 2 + 9 = 14 bits; the reported size
is 16. -/
theorem C2_padding_size_least_witness :
    coveredBits [plainSignal "A" 0 3, plainSignal "B" 5 9] 0 = 14 ∧
    msg2bsm_padding_size (messageOf "M" 7 2 [plainSignal "A" 0 3, plainSignal "B" 5 9]) = 16 ∧
    (msg2bsm_padding_size (messageOf "M" 7 2 [plainSignal "A" 0 3, plainSignal "B" 5 9])
        ∈ paddedSizes ∧
      coveredBits [plainSignal "A" 0 3, plainSignal "B" 5 9] 0
        ≤ msg2bsm_padding_size (messageOf "M" 7 2 [plainSignal "A" 0 3, plainSignal "B" 5 9]) ∧
      ∀ v ∈ paddedSizes, coveredBits [plainSignal "A" 0 3, plainSignal "B" 5 9] 0 ≤ v →
        msg2bsm_padding_size (messageOf "M" 7 2 [plainSignal "A" 0 3, plainSignal "B" 5 9]) ≤ v) :=
  ⟨by decide, by decide,
   C2_padding_size_least (messageOf "M" 7 2 [plainSignal "A" 0 3, plainSignal "B" 5 9])
     (by decide)⟩

/-- C3 (counterexample): for the message with signals A at [0,8) and B at [16,24) the
padded size `msg2bsm` reports is not 32. -/
theorem C3_two_signal_size_not_32 :
    msg2bsm_padding_size (messageOf "M" 100 3 [plainSignal "A" 0 8, plainSignal "B" 16 8])
      ≠ 32 := by
  decide

/-- C3 (amended): for every message with exactly two signals, A with start bit 0 and
length 8 and B with start bit 16 and length 8, the padded size `msg2bsm` reports is 24
(the covered bits 8 + 8 + 8 = 24 are already one of the four sizes). -/
theorem C3_two_signal_size_24 (name ecu : String) (id dlc : Nat) (A B : signal_t)
    (hA0 : A.start_bit = 0) (hA8 : A.bit_length = 8)
    (hB16 : B.start_bit = 16) (hB8 : B.bit_length = 8) :
    msg2bsm_padding_size { name := name, ecu := ecu, id := id, dlc := dlc, signals := [A, B] }
      = 24 := by
  simp [msg2bsm_padding_size, msg2bsm_first_walk, msg2bsm_round, u32, hA0, hA8, hB16, hB8]

/-- C3 (witness): the amended claim at signals named "A" and "B" of message 100. -/
theorem C3_two_signal_size_24_witness :
    msg2bsm_padding_size
      { name := "M", ecu := "E", id := 100, dlc := 3,
        signals := [plainSignal "A" 0 8, plainSignal "B" 16 8] } = 24 :=
  C3_two_signal_size_24 "M" "E" 100 3 (plainSignal "A" 0 8) (plainSignal "B" 16 8)
    rfl rfl rfl rfl

/-! ## Claims on `signal2bsm` -/

set_option maxRecDepth 100000 in
/-- C4 (the code at the failing input): for a signal of 20 bits the flipped entry of the
"(MSB)" block that `signal2bsm` writes has width 4 but holds 20 markers, the 16 markers
of the "(LSB)" block followed by 4 more, because the `memset` call of line 121 clears
nothing. -/
theorem C4_msb_flipped_keeps_lsb_markers (o : String) (depth : Nat) :
    signal2bsm (plainSignal "S" 0 20) o depth
      = some (0, o
          ++ ("\t\t\t\t\t\t\t\t\t<BE Name=\"S (LSB) Flipper\">\n"
          ++ "\t\t\t\t\t\t\t\t\t\t<BB Name=\"S (LSB) - Normal\" Bits=\"0\" Size=\"16\" />\n"
          ++ "\t\t\t\t\t\t\t\t\t\t<BB Name=\"S (LSB) - Flipped\" Bits=\"1,1,1,1,1,1,1,1,1,1,1,1,1,1,1,1\" Size=\"16\" />\n"
          ++ "\t\t\t\t\t\t\t\t\t</BE>\n"
          ++ "\t\t\t\t\t\t\t\t\t<BE Name=\"S (MSB) Flipper\">\n"
          ++ "\t\t\t\t\t\t\t\t\t\t<BB Name=\"S (MSB) - Normal\" Bits=\"0\" Size=\"4\" />\n"
          ++ "\t\t\t\t\t\t\t\t\t\t<BB Name=\"S (MSB) - Flipped\" MultiBits=\"1,1,1,1,1,1,1,1,1,1,1,1,1,1,1,1,1,1,1,1\" Size=\"4\" />\n"
          ++ "\t\t\t\t\t\t\t\t\t</BE>\n")) ∧
      markerCount "1,1,1,1,1,1,1,1,1,1,1,1,1,1,1,1,1,1,1,1" = 20 ∧
      markerCount "1,1,1,1,1,1,1,1,1,1,1,1,1,1,1,1,1,1,1,1" ≠ 20 - 16 := by
  refine ⟨?_, by decide, by decide⟩
  rw [signal2bsm_wide_eq _ _ _ (by decide) (by decide), String.append_assoc]
  exact congrArg (fun t => some ((0 : Int), o ++ t)) (by decide)

/-- C5: for every signal with `bit_length` at most 16, `signal2bsm` returns 0 and writes
exactly one grouped block with exactly two sub-entries: a normal entry with bit offset 0
and width `bit_length`, and a flipped entry of width `bit_length` whose contents are
exactly `bit_length` markers "1" joined by ",". -/
theorem C5_narrow_signal_one_block (sig : signal_t) (o : String) (depth : Nat)
    (h : sig.bit_length ≤ 16) :
    signal2bsm sig o depth
      = some (0, o ++ BE.render
          { Name := sig.name ++ " Flipper",
            entries :=
              [ { Name := sig.name ++ " - Normal", attr := "Bits", content := "0",
                  Size := sig.bit_length },
                { Name := sig.name ++ " - Flipped", attr := "MultiBits",
                  content := ",".intercalate (List.replicate sig.bit_length "1"),
                  Size := sig.bit_length } ] }) ∧
      markerCount (",".intercalate (List.replicate sig.bit_length "1")) = sig.bit_length :=
  ⟨signal2bsm_narrow_eq sig o depth h, markerCount_markers sig.bit_length⟩

/-- C5 (witness): the 8-bit signal Foo at bit 0 yields one block whose flipped entry
holds 8 markers. -/
theorem C5_narrow_signal_one_block_witness :
    signal2bsm (plainSignal "Foo" 0 8) "" 2
      = some (0, "" ++ BE.render
          { Name := "Foo" ++ " Flipper",
            entries :=
              [ { Name := "Foo" ++ " - Normal", attr := "Bits", content := "0", Size := 8 },
                { Name := "Foo" ++ " - Flipped", attr := "MultiBits",
                  content := ",".intercalate (List.replicate 8 "1"), Size := 8 } ] }) ∧
      markerCount (",".intercalate (List.replicate 8 "1")) = 8 :=
  C5_narrow_signal_one_block (plainSignal "Foo" 0 8) "" 2 (by decide)

/-- C6: for every signal with `bit_length` above 16 (and at most 64, the bound of the data
model that `ast2signal` asserts), `signal2bsm` returns 0 and writes exactly two grouped
blocks, the first labelled "(LSB)" and the second "(MSB)" in the signal's name, each
with one normal and one flipped sub-entry; both LSB entries have width 16, both MSB
entries have width `bit_length - 16`, and the two widths sum to `bit_length`. -/
theorem C6_wide_signal_two_blocks (sig : signal_t) (o : String) (depth : Nat)
    (h : 16 < sig.bit_length) (h64 : sig.bit_length ≤ 64) :
    signal2bsm sig o depth
      = some (0, o
          ++ BE.render
            { Name := sig.name ++ " (LSB) Flipper",
              entries :=
                [ { Name := sig.name ++ " (LSB) - Normal", attr := "Bits", content := "0",
                    Size := 16 },
                  { Name := sig.name ++ " (LSB) - Flipped", attr := "Bits",
                    content := markers 16, Size := 16 } ] }
          ++ BE.render
            { Name := sig.name ++ " (MSB) Flipper",
              entries :=
                [ { Name := sig.name ++ " (MSB) - Normal", attr := "Bits", content := "0",
                    Size := sig.bit_length - 16 },
                  { Name := sig.name ++ " (MSB) - Flipped", attr := "MultiBits",
                    content := markers sig.bit_length, Size := sig.bit_length - 16 } ] }) ∧
      16 + (sig.bit_length - 16) = sig.bit_length :=
  ⟨signal2bsm_wide_eq sig o depth h h64, by omega⟩

/-- C6 (witness): a 20-bit signal yields an "(LSB)" block of width 16 and an "(MSB)" block
of width 4. -/
theorem C6_wide_signal_two_blocks_witness :
    signal2bsm (plainSignal "Wide" 0 20) "" 2
      = some (0, ""
          ++ BE.render
            { Name := "Wide" ++ " (LSB) Flipper",
              entries :=
                [ { Name := "Wide" ++ " (LSB) - Normal", attr := "Bits", content := "0",
                    Size := 16 },
                  { Name := "Wide" ++ " (LSB) - Flipped", attr := "Bits",
                    content := markers 16, Size := 16 } ] }
          ++ BE.render
            { Name := "Wide" ++ " (MSB) Flipper",
              entries :=
                [ { Name := "Wide" ++ " (MSB) - Normal", attr := "Bits", content := "0",
                    Size := 20 - 16 },
                  { Name := "Wide" ++ " (MSB) - Flipped", attr := "MultiBits",
                    content := markers 20, Size := 20 - 16 } ] }) ∧
      16 + (20 - 16) = 20 :=
  C6_wide_signal_two_blocks (plainSignal "Wide" 0 20) "" 2 (by decide) (by decide)

/-! ## Claims on the second walk of `msg2bsm` -/

/-- C7: for every message whose signals lie within the ranges `ast2signal` asserts,
`msg2bsm` returns, the signals it emits are the plain ones (neither multiplexor nor
multiplexed) met before a second multiplexor, and its `signal2bsm` calls are the filler
plan of those signals: a filler named "UNKNOWN" with empty units, `start_bit = last_bit`
and `bit_length = start_bit - last_bit` goes immediately before an emitted signal if and
only if its `start_bit` is greater than the running `last_bit`.  Signals A [0,8) and
B [16,24) yield the order A, UNKNOWN [8,16), B; a single signal at bit 0 yields no
filler. -/
theorem C7_filler_before_gap :
    (∀ (F : BsmFormats) (msg : can_msg_t) (o : String) (depth : Nat),
        (∀ s ∈ msg.signals, signal_in_range s) →
        ∃ r o1 log, msg2bsm F msg o depth = some (r, o1, log) ∧
          realCalls log = (beforeSecondMultiplexor msg.signals false).filter is_plain ∧
          log = fillerPlan (realCalls log) 0) ∧
    (∀ (F : BsmFormats) (o : String) (depth : Nat), ∃ o1,
        msg2bsm F (messageOf "M" 100 3 [plainSignal "A" 0 8, plainSignal "B" 16 8]) o depth
          = some (0, o1,
              [ (call_site.real, plainSignal "A" 0 8),
                (call_site.filler,
                  { name := "UNKNOWN", start_bit := 8, bit_length := 8,
                    endianess := endianess_e.endianess_motorola_e, is_signed := false,
                    units := "", is_multiplexor := false, is_multiplexed := false,
                    switchval := 0 }),
                (call_site.real, plainSignal "B" 16 8) ])) ∧
    (∀ (F : BsmFormats) (o : String) (depth : Nat), ∃ o1,
        msg2bsm F (messageOf "M" 100 1 [plainSignal "Foo" 0 8]) o depth
          = some (0, o1, [ (call_site.real, plainSignal "Foo" 0 8) ])) := by
  refine ⟨?_, ?_, ?_⟩
  · intro F msg o depth h
    obtain ⟨o1, ho1⟩ := msg2bsm_in_range F msg o depth h
    refine ⟨_, o1, _, ho1, ?_, ?_⟩
    · rw [realCalls_fillerPlan]
    · rw [realCalls_fillerPlan]
  · intro F o depth
    obtain ⟨o1, ho1⟩ := msg2bsm_in_range F
      (messageOf "M" 100 3 [plainSignal "A" 0 8, plainSignal "B" 16 8]) o depth (by decide)
    exact ⟨o1, ho1⟩
  · intro F o depth
    obtain ⟨o1, ho1⟩ := msg2bsm_in_range F
      (messageOf "M" 100 1 [plainSignal "Foo" 0 8]) o depth (by decide)
    exact ⟨o1, ho1⟩

/-- C7 (witness): the general part at the message with signals [0,8), [16,24) and
[20,30): one filler before the second signal, none before the third. -/
theorem C7_filler_before_gap_witness :
    ∃ r o1 log,
      msg2bsm ⟨"", "", fun _ _ _ _ => "", ""⟩
          (messageOf "M" 100 4
            [plainSignal "A" 0 8, plainSignal "B" 16 8, plainSignal "C" 20 10]) "" 1
        = some (r, o1, log) ∧
      realCalls log = (beforeSecondMultiplexor
          (messageOf "M" 100 4
            [plainSignal "A" 0 8, plainSignal "B" 16 8, plainSignal "C" 20 10]).signals
          false).filter is_plain ∧
      log = fillerPlan (realCalls log) 0 :=
  C7_filler_before_gap.1 ⟨"", "", fun _ _ _ _ => "", ""⟩
    (messageOf "M" 100 4 [plainSignal "A" 0 8, plainSignal "B" 16 8, plainSignal "C" 20 10])
    "" 1 (by decide)

/-! ## Claims on the signal sort of `ast2msg` -/

/-- C8: for every list of signals collected in source order, the `do ... while` loop of
`ast2msg` ends as soon as it is allowed more runs than the list has out-of-order pairs,
and the sequence it stores is the stable ascending sort of the list by `start_bit`: it
is a permutation of the collected signals, `start_bit` is non-decreasing along it, and
the signals with equal `start_bit` keep their source order. -/
theorem C8_sort_stable_ascending (signals : List signal_t) (fuel : Nat)
    (h : inversions signals < fuel) :
    ∃ r, ast2msg_sort fuel signals = some r ∧
      r = stableSortByStartBit signals ∧
      r.Perm signals ∧
      r.Pairwise (fun a b => a.start_bit ≤ b.start_bit) ∧
      ∀ k : Nat, r.filter (fun sig => sig.start_bit = k)
        = signals.filter (fun sig => sig.start_bit = k) := by
  obtain ⟨r, hr, hp, hs, hk, he⟩ := ast2msg_sort_spec fuel signals h
  exact ⟨r, hr, he, hp, hs, hk⟩

/-- C8 (witness): signals collected as A@5, B@3, C@5, D@0 are stored as D, B, A, C; A stays
in front of C. -/
theorem C8_sort_stable_ascending_witness :
    ast2msg_sort 5
        [plainSignal "A" 5 8, plainSignal "B" 3 2, plainSignal "C" 5 1, plainSignal "D" 0 1]
      = some
        [plainSignal "D" 0 1, plainSignal "B" 3 2, plainSignal "A" 5 8, plainSignal "C" 5 1] ∧
    ∃ r, ast2msg_sort 5
        [plainSignal "A" 5 8, plainSignal "B" 3 2, plainSignal "C" 5 1, plainSignal "D" 0 1]
        = some r ∧
      r = stableSortByStartBit
        [plainSignal "A" 5 8, plainSignal "B" 3 2, plainSignal "C" 5 1, plainSignal "D" 0 1] ∧
      r.Perm
        [plainSignal "A" 5 8, plainSignal "B" 3 2, plainSignal "C" 5 1, plainSignal "D" 0 1] ∧
      r.Pairwise (fun a b => a.start_bit ≤ b.start_bit) ∧
      ∀ k : Nat, r.filter (fun sig => sig.start_bit = k)
        = [plainSignal "A" 5 8, plainSignal "B" 3 2, plainSignal "C" 5 1,
            plainSignal "D" 0 1].filter (fun sig => sig.start_bit = k) :=
  ⟨by decide,
   C8_sort_stable_ascending
    [plainSignal "A" 5 8, plainSignal "B" 3 2, plainSignal "C" 5 1, plainSignal "D" 0 1] 5
    (by decide)⟩

/-- C9: the signal sort of `ast2msg` is idempotent: for every signal list, running the
sort again on its result returns the same sequence unchanged, whatever number of runs
(at least one) the second sort is allowed. -/
theorem C9_sort_idempotent (signals : List signal_t) (fuel fuel2 : Nat)
    (h : inversions signals < fuel) (h2 : 0 < fuel2) :
    (∃ r, ast2msg_sort fuel signals = some r ∧ ast2msg_sort fuel2 r = some r) ∧
      (ast2msg_sort fuel signals).bind (ast2msg_sort fuel2) = ast2msg_sort fuel signals := by
  obtain ⟨r, hr, _, hs, _, _⟩ := ast2msg_sort_spec fuel signals h
  have hrr := ast2msg_sort_of_sorted fuel2 r hs h2
  refine ⟨⟨r, hr, hrr⟩, ?_⟩
  rw [hr, Option.some_bind, hrr]

/-- C9 (witness): sorting C@9, B@4, A@0 and sorting the result again gives A, B, C both
times. -/
theorem C9_sort_idempotent_witness :
    ast2msg_sort 4 [plainSignal "C" 9 2, plainSignal "B" 4 2, plainSignal "A" 0 2]
      = some [plainSignal "A" 0 2, plainSignal "B" 4 2, plainSignal "C" 9 2] ∧
    ((∃ r, ast2msg_sort 4 [plainSignal "C" 9 2, plainSignal "B" 4 2, plainSignal "A" 0 2]
          = some r ∧ ast2msg_sort 1 r = some r) ∧
      (ast2msg_sort 4 [plainSignal "C" 9 2, plainSignal "B" 4 2, plainSignal "A" 0 2]).bind
          (ast2msg_sort 1)
        = ast2msg_sort 4 [plainSignal "C" 9 2, plainSignal "B" 4 2, plainSignal "A" 0 2]) :=
  ⟨by decide,
   C9_sort_idempotent [plainSignal "C" 9 2, plainSignal "B" 4 2, plainSignal "A" 0 2] 4 1
    (by decide) (by decide)⟩

/-! ## Claim on the multiplexor check -/

/-- C10: for every message (signals within the ranges `ast2signal` asserts) in which more
than one signal has `is_multiplexor` set, `msg2bsm` returns -1; and for every database
that contains such a message `dbc2bsm` fails: without time stamps it returns -1, and
with either setting of the flag it never returns 0. -/
theorem C10_second_multiplexor_fails :
    (∀ (F : BsmFormats) (msg : can_msg_t) (o : String) (depth : Nat),
        (∀ s ∈ msg.signals, signal_in_range s) →
        1 < multiplexorCount msg.signals →
        ∃ o1 log, msg2bsm F msg o depth = some (-1, o1, log)) ∧
    (∀ (F : BsmFormats) (dbc : dbc_t) (output : String) (clock : String),
        (∀ m ∈ dbc.messages, ∀ s ∈ m.signals, signal_in_range s) →
        (∃ m ∈ dbc.messages, 1 < multiplexorCount m.signals) →
        (∃ o1, dbc2bsm F dbc output false clock = some (-1, o1)) ∧
        ∀ (use_time_stamps : Bool) (o1 : String),
          dbc2bsm F dbc output use_time_stamps clock ≠ some (0, o1)) := by
  constructor
  · intro F msg o depth h hc
    obtain ⟨o1, ho1⟩ := msg2bsm_in_range F msg o depth h
    have h2 : hasSecondMultiplexor msg.signals false = true :=
      (hasSecondMultiplexor_iff msg.signals false).mpr (by simpa using hc)
    rw [h2] at ho1
    exact ⟨o1, _, ho1⟩
  · intro F dbc output clock h hex
    obtain ⟨o1, ho1⟩ := dbc2bsm_loop_second_multiplexor F dbc.messages
      (comment output 0 "Generated by dbcc (see https://github.com/howerj/dbcc)"
        ++ F.BSM_PREFIX) h hex
    have hfalse : dbc2bsm F dbc output false clock = some (-1, o1) := by
      simp only [dbc2bsm, Bool.false_eq_true, if_false]
      exact ho1
    refine ⟨⟨o1, hfalse⟩, ?_⟩
    intro use_time_stamps o2
    cases use_time_stamps with
    | false => rw [hfalse]; simp
    | true => simp [dbc2bsm, asctime_s]

/-- C10 (witness): a message with the two multiplexors M1 and M2 makes `msg2bsm` return
-1, and a database holding it after a sound message makes `dbc2bsm` return -1. -/
theorem C10_second_multiplexor_fails_witness :
    (∃ o1 log,
      msg2bsm ⟨"", "", fun _ _ _ _ => "", ""⟩
          (messageOf "M" 100 2
            [ { plainSignal "M1" 0 4 with is_multiplexor := true },
              plainSignal "A" 4 4,
              { plainSignal "M2" 8 4 with is_multiplexor := true } ]) "" 1
        = some (-1, o1, log)) ∧
    ((∃ o1,
      dbc2bsm ⟨"", "", fun _ _ _ _ => "", ""⟩
          ⟨[ messageOf "N" 99 1 [plainSignal "Foo" 0 8],
             messageOf "M" 100 2
              [ { plainSignal "M1" 0 4 with is_multiplexor := true },
                plainSignal "A" 4 4,
                { plainSignal "M2" 8 4 with is_multiplexor := true } ] ]⟩ "" false ""
        = some (-1, o1)) ∧
      ∀ (use_time_stamps : Bool) (o1 : String),
        dbc2bsm ⟨"", "", fun _ _ _ _ => "", ""⟩
            ⟨[ messageOf "N" 99 1 [plainSignal "Foo" 0 8],
               messageOf "M" 100 2
                [ { plainSignal "M1" 0 4 with is_multiplexor := true },
                  plainSignal "A" 4 4,
                  { plainSignal "M2" 8 4 with is_multiplexor := true } ] ]⟩ ""
            use_time_stamps ""
          ≠ some (0, o1)) :=
  ⟨C10_second_multiplexor_fails.1 ⟨"", "", fun _ _ _ _ => "", ""⟩
      (messageOf "M" 100 2
        [ { plainSignal "M1" 0 4 with is_multiplexor := true },
          plainSignal "A" 4 4,
          { plainSignal "M2" 8 4 with is_multiplexor := true } ]) "" 1
      (by decide) (by decide),
   C10_second_multiplexor_fails.2 ⟨"", "", fun _ _ _ _ => "", ""⟩
      ⟨[ messageOf "N" 99 1 [plainSignal "Foo" 0 8],
         messageOf "M" 100 2
          [ { plainSignal "M1" 0 4 with is_multiplexor := true },
            plainSignal "A" 4 4,
            { plainSignal "M2" 8 4 with is_multiplexor := true } ] ]⟩ "" ""
      (by decide) ⟨_, List.mem_cons_of_mem _ (List.mem_cons_self _ _), by decide⟩⟩

/-! ## Claims on the output of `msg2bsm` -/

/-- C11 (counterexample): for a message whose two signals are both multiplexors, the
failing `msg2bsm` call made by `dbc2bsm` (depth 1) on an empty stream returns -1 and has
written a tab, even when every format text of `2bsm.h` is taken to be empty. -/
theorem C11_failing_call_has_written :
    msg2bsm ⟨"", "", fun _ _ _ _ => "", ""⟩
        (messageOf "M" 100 2
          [ { plainSignal "M1" 0 4 with is_multiplexor := true },
            { plainSignal "M2" 4 4 with is_multiplexor := true } ]) "" 1
      = some (-1, "\t", []) ∧ "\t" ≠ "" := by
  decide

/-- C11 (amended): for every message (signals within the ranges `ast2signal` asserts) with
more than one multiplexor signal, the failing `msg2bsm` call returns -1 after it has
written the indentation, the message wrapper prefix and the blocks, fillers included, of
the plain signals that precede the second multiplexor, and nothing else: no block of a
signal that follows the second multiplexor and no message suffix. -/
theorem C11_failing_call_output (F : BsmFormats) (msg : can_msg_t) (o : String) (depth : Nat)
    (h : ∀ s ∈ msg.signals, signal_in_range s) (hc : 1 < multiplexorCount msg.signals) :
    msg2bsm F msg o depth
      = some (-1,
          indent o depth
            ++ F.BSM_MESSAGE_PREFIX msg.name msg.id msg.id (msg2bsm_padding_size msg)
            ++ logText (fillerPlan
                ((beforeSecondMultiplexor msg.signals false).filter is_plain) 0),
          fillerPlan ((beforeSecondMultiplexor msg.signals false).filter is_plain) 0) := by
  have h2 : hasSecondMultiplexor msg.signals false = true :=
    (hasSecondMultiplexor_iff msg.signals false).mpr (by simpa using hc)
  rw [msg2bsm_text F msg o depth h, h2]
  simp

/-- C11 (witness): multiplexor M1, plain signal A at [8,12), multiplexor M2, plain signal
B at [16,24): the call returns -1 after the wrapper prefix, the filler [0,8) and the
block of A; nothing is written for B and the suffix is not written. -/
theorem C11_failing_call_output_witness :
    msg2bsm ⟨"<P>", "</P>", fun name _ _ _ => "<M " ++ name ++ ">", "</M>"⟩
        (messageOf "M" 100 3
          [ { plainSignal "M1" 0 4 with is_multiplexor := true },
            plainSignal "A" 8 4,
            { plainSignal "M2" 12 4 with is_multiplexor := true },
            plainSignal "B" 16 8 ]) "" 1
      = some (-1,
          indent "" 1
            ++ "<M M>"
            ++ logText [ (call_site.filler, unknownsig 0 8), (call_site.real, plainSignal "A" 8 4) ],
          [ (call_site.filler, unknownsig 0 8), (call_site.real, plainSignal "A" 8 4) ]) :=
  C11_failing_call_output ⟨"<P>", "</P>", fun name _ _ _ => "<M " ++ name ++ ">", "</M>"⟩
    (messageOf "M" 100 3
      [ { plainSignal "M1" 0 4 with is_multiplexor := true },
        plainSignal "A" 8 4,
        { plainSignal "M2" 12 4 with is_multiplexor := true },
        plainSignal "B" 16 8 ]) "" 1
    (by decide) (by decide)

/-- C12: for every message (signals within the ranges `ast2signal` asserts) with at most
one multiplexor signal, `msg2bsm` returns 0, the signals of its real (non-filler) calls
are exactly the signals having neither `is_multiplexor` nor `is_multiplexed` set, in the
message's signal order, and the text written is the wrapper prefix, the blocks of the
calls in order and the suffix: no block comes from a multiplexor or multiplexed signal. -/
theorem C12_real_blocks_are_plain_signals (F : BsmFormats) (msg : can_msg_t) (o : String)
    (depth : Nat) (h : ∀ s ∈ msg.signals, signal_in_range s)
    (hc : multiplexorCount msg.signals ≤ 1) :
    ∃ log, msg2bsm F msg o depth
        = some (0,
            indent o depth
              ++ F.BSM_MESSAGE_PREFIX msg.name msg.id msg.id (msg2bsm_padding_size msg)
              ++ logText log ++ F.BSM_MESSAGE_SUFFIX,
            log) ∧
      realCalls log
        = msg.signals.filter (fun sig => !sig.is_multiplexor && !sig.is_multiplexed) ∧
      ∀ c ∈ log, c.1 = call_site.real →
        c.2.is_multiplexor = false ∧ c.2.is_multiplexed = false := by
  have h2 : hasSecondMultiplexor msg.signals false = false := by
    cases hh : hasSecondMultiplexor msg.signals false with
    | false => rfl
    | true =>
      have := (hasSecondMultiplexor_iff msg.signals false).mp hh
      simp at this
      omega
  have hplan : realCalls (fillerPlan (msg.signals.filter is_plain) 0)
      = msg.signals.filter is_plain := realCalls_fillerPlan _ 0
  refine ⟨fillerPlan (msg.signals.filter is_plain) 0, ?_, ?_, ?_⟩
  · rw [msg2bsm_text F msg o depth h, h2, beforeSecondMultiplexor_eq _ _ h2]
    simp
  · rw [hplan]
    rfl
  · intro c hcm hreal
    have hmem : c.2 ∈ realCalls (fillerPlan (msg.signals.filter is_plain) 0) := by
      unfold realCalls
      exact List.mem_map.mpr ⟨c, List.mem_filter.mpr ⟨hcm, by simpa using hreal⟩, rfl⟩
    rw [hplan] at hmem
    have hp := (List.mem_filter.mp hmem).2
    simpa [is_plain] using hp

/-- C12 (witness): multiplexor Mx, multiplexed signal Sub and the plain signals A and B:
only A and B reach `signal2bsm`. -/
theorem C12_real_blocks_are_plain_signals_witness :
    ∃ log, msg2bsm ⟨"<P>", "</P>", fun name _ _ _ => "<M " ++ name ++ ">", "</M>"⟩
        (messageOf "M" 100 2
          [ { plainSignal "Mx" 0 4 with is_multiplexor := true },
            plainSignal "A" 4 4,
            { plainSignal "Sub" 8 8 with is_multiplexed := true, switchval := 1 },
            plainSignal "B" 16 8 ]) "" 1
        = some (0,
            indent "" 1
              ++ "<M M>"
              ++ logText log ++ "</M>",
            log) ∧
      realCalls log = [plainSignal "A" 4 4, plainSignal "B" 16 8] ∧
      ∀ c ∈ log, c.1 = call_site.real →
        c.2.is_multiplexor = false ∧ c.2.is_multiplexed = false :=
  C12_real_blocks_are_plain_signals
    ⟨"<P>", "</P>", fun name _ _ _ => "<M " ++ name ++ ">", "</M>"⟩
    (messageOf "M" 100 2
      [ { plainSignal "Mx" 0 4 with is_multiplexor := true },
        plainSignal "A" 4 4,
        { plainSignal "Sub" 8 8 with is_multiplexed := true, switchval := 1 },
        plainSignal "B" 16 8 ]) "" 1
    (by decide) (by decide)

/-! ## Claims on the escaping of text -/

set_option maxRecDepth 100000 in
/-- C13 (counterexample): for the signal named a"b, `signal2bsm` writes the double quote
of the name as it is inside the `Name` attributes; the text differs from the one that
carries the name after the substitution table (a&quot;b). -/
theorem C13_name_written_unescaped :
    signal2bsm (plainSignal "a\"b" 0 1) "" 0
      = some (0,
          "\t\t\t\t\t\t\t\t\t<BE Name=\"a\"b Flipper\">\n"
          ++ "\t\t\t\t\t\t\t\t\t\t<BB Name=\"a\"b - Normal\" Bits=\"0\" Size=\"1\" />\n"
          ++ "\t\t\t\t\t\t\t\t\t\t<BB Name=\"a\"b - Flipped\" MultiBits=\"1\" Size=\"1\" />\n"
          ++ "\t\t\t\t\t\t\t\t\t</BE>\n") ∧
      escapedText "a\"b" = "a&quot;b" ∧
      signal2bsm (plainSignal "a\"b" 0 1) "" 0
        ≠ some (0, blockText (plainSignal (escapedText "a\"b") 0 1)) := by
  decide

/-- C13 (amended): for every signal name and message name that holds none of the five
characters of the substitution table (as the identifiers of the grammar do), the text
`signal2bsm` embeds in the attributes of its blocks, and the name `msg2bsm` hands to the
wrapper format, equal the name after the substitution table has been applied; the names
are passed on as they are, the table is not applied on this path. -/
theorem C13_clean_names_embedded :
    (∀ (sig : signal_t) (o : String) (depth : Nat),
        sig.bit_length ≤ 64 →
        (∀ c ∈ sig.name.toList, isTableChar c = false) →
        signal2bsm sig o depth
          = some (0, o ++ blockText { sig with name := escapedText sig.name })) ∧
    (∀ (F : BsmFormats) (msg : can_msg_t) (o : String) (depth : Nat),
        (∀ s ∈ msg.signals, signal_in_range s) →
        (∀ c ∈ msg.name.toList, isTableChar c = false) →
        ∃ r rest log, msg2bsm F msg o depth
          = some (r,
              indent o depth
                ++ F.BSM_MESSAGE_PREFIX (escapedText msg.name) msg.id msg.id
                    (msg2bsm_padding_size msg)
                ++ rest,
              log)) := by
  constructor
  · intro sig o depth h hc
    rw [escapedText_clean sig.name hc]
    exact signal2bsm_text sig o depth h
  · intro F msg o depth h hc
    rw [escapedText_clean msg.name hc]
    refine ⟨(if hasSecondMultiplexor msg.signals false then -1 else 0),
      logText (fillerPlan ((beforeSecondMultiplexor msg.signals false).filter is_plain) 0)
        ++ (if hasSecondMultiplexor msg.signals false then "" else F.BSM_MESSAGE_SUFFIX),
      fillerPlan ((beforeSecondMultiplexor msg.signals false).filter is_plain) 0, ?_⟩
    rw [msg2bsm_text F msg o depth h]
    simp only [String.append_assoc]

/-- C13 (witness): the signal Foo of 8 bits; its name is its own escaped text. -/
theorem C13_clean_names_embedded_witness :
    signal2bsm (plainSignal "Foo" 0 8) "" 2
      = some (0, "" ++ blockText { plainSignal "Foo" 0 8 with
          name := escapedText (plainSignal "Foo" 0 8).name }) :=
  C13_clean_names_embedded.1 (plainSignal "Foo" 0 8) "" 2 (by decide) (by decide)

/-- C14: for every string, `print_escaped` returns 0 and appends the escaped text to the
stream, reading the substitution table backwards on that text gives the string back, and
so two strings with the same escaped text are equal. -/
theorem C14_escape_round_trip :
    (∀ (o s : String), print_escaped o s = (0, o ++ escapedText s)) ∧
    (∀ s : String, reverseTable (escapedText s) = s) ∧
    (∀ s1 s2 : String, escapedText s1 = escapedText s2 → s1 = s2) := by
  refine ⟨?_, reverseTable_escapedText, ?_⟩
  · intro o s
    rw [escapedText_eq]
    exact print_escaped_loop_eq s.toList o
  · intro s1 s2 h
    have h1 := reverseTable_escapedText s1
    rw [h, reverseTable_escapedText s2] at h1
    exact h1.symm

/-- C14 (witness): for a string with the five characters and with the text of an entity
in it, the escaped text read backwards is the string; equal escaped texts force equal
strings. -/
theorem C14_escape_round_trip_witness :
    escapedText "a\"b<c>&d&lt;e" = "a&quot;b&lt;c&gt;&amp;d&amp;lt;e" ∧
    reverseTable (escapedText "a\"b<c>&d&lt;e") = "a\"b<c>&d&lt;e" ∧
    "<&>" = "<&>" :=
  ⟨by decide,
   C14_escape_round_trip.2.1 "a\"b<c>&d&lt;e",
   C14_escape_round_trip.2.2 "<&>" "<&>" (by decide)⟩

/-! ## Claims on model building -/

/-- C15 (counterexample): a signal node whose length child reads "0" passes every
assertion of `ast2signal`; the signal built has `bit_length` 0, below 1. -/
theorem C15_zero_length_signal_built :
    ast2signal
        { name := "Z", startbit := "0", length := "0", endianess := "1", sign := "+",
          scalar_converts := true, offset_converts := true, min_converts := true,
          max_converts := true, unit := "", multiplex := none, multiplexor_char := false }
      = some (plainSignal "Z" 0 0) ∧
    ¬ (1 ≤ (plainSignal "Z" 0 0).bit_length ∧ (plainSignal "Z" 0 0).bit_length ≤ 64) := by
  decide

/-- C15 (amended): every signal that `ast2signal` builds successfully (all its assertions
pass) has `bit_length` between 0 and 64 inclusive. -/
theorem C15_built_signal_length_at_most_64 (ast : signal_ast) (sig : signal_t)
    (h : ast2signal ast = some sig) : 0 ≤ sig.bit_length ∧ sig.bit_length ≤ 64 :=
  ⟨Nat.zero_le _, (ast2signal_in_range ast sig h).2⟩

/-- C15 (witness): the 64-bit signal built from the length text "64". -/
theorem C15_built_signal_length_at_most_64_witness :
    ast2signal
        { name := "W", startbit := "0", length := "64", endianess := "0", sign := "-",
          scalar_converts := true, offset_converts := true, min_converts := true,
          max_converts := true, unit := "V", multiplex := none, multiplexor_char := false }
      = some
        { name := "W", start_bit := 0, bit_length := 64,
          endianess := endianess_e.endianess_motorola_e, is_signed := true, units := "V",
          is_multiplexor := false, is_multiplexed := false, switchval := 0 } ∧
    0 ≤ (64 : Nat) ∧ (64 : Nat) ≤ 64 :=
  ⟨by decide,
   C15_built_signal_length_at_most_64
    { name := "W", startbit := "0", length := "64", endianess := "0", sign := "-",
      scalar_converts := true, offset_converts := true, min_converts := true,
      max_converts := true, unit := "V", multiplex := none, multiplexor_char := false }
    { name := "W", start_bit := 0, bit_length := 64,
      endianess := endianess_e.endianess_motorola_e, is_signed := true, units := "V",
      is_multiplexor := false, is_multiplexed := false, switchval := 0 }
    (by decide)⟩

/-- C17 (counterexample): for a syntax tree without a message collection, and for one
whose message collection has no children, `ast2dbc` returns `NULL`, not a database with
`message_count = 0`. -/
theorem C17_no_messages_returns_null :
    ast2dbc 1 { messages := none } = some none ∧
    ast2dbc 1 { messages := some [] } = some none ∧
    ast2dbc 1 { messages := none } ≠ some (some { messages := [] }) ∧
    ast2dbc 1 { messages := some [] } ≠ some (some { messages := [] }) := by
  decide

/-- C17 (amended): for every syntax tree whose message collection is missing or has no
children, `ast2dbc` does not abort; it returns `NULL`, no database value at all, after
its warning. -/
theorem C17_no_messages_null (fuel : Nat) (ast : dbc_ast)
    (h : ast.messages = none ∨ ast.messages = some []) : ast2dbc fuel ast = some none := by
  rcases h with h | h <;> simp [ast2dbc, h]

/-- C17 (witness): the tree whose message collection has no children. -/
theorem C17_no_messages_null_witness : ast2dbc 0 { messages := some [] } = some none :=
  C17_no_messages_null 0 { messages := some [] } (Or.inr rfl)

/-! ## Claim on the timestamp flag of `dbc2bsm` -/

/-- C16 (the code at the failing input): for every database and every clock value, the
run of `dbc2bsm` with time stamps ends inside `asctime_s`, which line 272 hands the
size 25 of its 26-byte buffer, one less than the function requires; it returns nothing.
The run without time stamps writes the leading comment, the prologue and the body of
the message loop; on the database of the one message 100 with the 8-bit signal Foo it
returns 0. -/
theorem C16_timestamp_run_ends_in_asctime_s (F : BsmFormats) (dbc : dbc_t)
    (output clock : String) :
    dbc2bsm F dbc output true clock = none ∧
    dbc2bsm F dbc output false clock
      = (dbc2bsm_loop F dbc.messages "").map (fun p => (p.1,
          output ++ "<!-- Generated by dbcc (see https://github.com/howerj/dbcc) -->\n"
            ++ F.BSM_PREFIX ++ p.2)) ∧
    (dbc2bsm F ⟨[messageOf "M" 100 1 [plainSignal "Foo" 0 8]]⟩ output false clock).map
        (fun p => p.1) = some 0 := by
  refine ⟨?_, ?_, ?_⟩
  · simp [dbc2bsm, asctime_s]
  · simp only [dbc2bsm, Bool.false_eq_true, if_false]
    rw [dbc2bsm_loop_frame]
    simp [comment, indent, String.append_assoc]
  · simp only [dbc2bsm, Bool.false_eq_true, if_false, dbc2bsm_loop]
    obtain ⟨o1, ho1⟩ := msg2bsm_in_range F (messageOf "M" 100 1 [plainSignal "Foo" 0 8])
      (comment output 0 "Generated by dbcc (see https://github.com/howerj/dbcc)"
        ++ F.BSM_PREFIX) 1 (by decide)
    rw [ho1]
    rfl

/-! ## Claims on covered bits, the marker buffer and the end of the sort -/

/-- C18: for every message (signals within the ranges `ast2signal` asserts) none of whose
signals is flagged `is_multiplexor` or `is_multiplexed`, `msg2bsm` returns 0 and the sum
of `bit_length` over all entries of its second walk, filler and real, equals the
unrounded `padding_size` of the first walk: as 32-bit values always, and as plain numbers
whenever the sum is below 2^32.  If in addition the signals are laid out in ascending
order without overlap, both equal `start_bit + bit_length` of the last signal. -/
theorem C18_emitted_bits_equal_padding (F : BsmFormats) (msg : can_msg_t) (o : String)
    (depth : Nat) (hr : ∀ s ∈ msg.signals, signal_in_range s)
    (hp : ∀ s ∈ msg.signals, s.is_multiplexor = false ∧ s.is_multiplexed = false) :
    ∃ o1 log, msg2bsm F msg o depth = some (0, o1, log) ∧
      u32 (emittedBits log) = msg2bsm_first_walk msg.signals 0 0 ∧
      (emittedBits log < 4294967296 →
        emittedBits log = msg2bsm_first_walk msg.signals 0 0) ∧
      (∀ last : signal_t, msg.signals.getLast? = some last →
        msg.signals.Pairwise (fun a b => a.start_bit + a.bit_length ≤ b.start_bit) →
        emittedBits log = last.start_bit + last.bit_length ∧
        msg2bsm_first_walk msg.signals 0 0 = last.start_bit + last.bit_length) := by
  obtain ⟨h2, hf⟩ := plain_signals_walk msg.signals hp false
  have hw : msg2bsm_first_walk msg.signals 0 0 = u32 (coveredBits msg.signals 0) := by
    rw [msg2bsm_first_walk_in_range msg.signals 0 0 hr (by decide), Nat.zero_add]
  have he : emittedBits (fillerPlan msg.signals 0) = coveredBits msg.signals 0 :=
    emittedBits_fillerPlan msg.signals 0
  refine ⟨indent o depth
      ++ F.BSM_MESSAGE_PREFIX msg.name msg.id msg.id (msg2bsm_padding_size msg)
      ++ logText (fillerPlan msg.signals 0) ++ F.BSM_MESSAGE_SUFFIX,
    fillerPlan msg.signals 0, ?_, ?_, ?_, ?_⟩
  · rw [msg2bsm_text F msg o depth hr, h2, hf]
    rfl
  · rw [he, hw]
  · intro hlt
    rw [he] at hlt ⊢
    rw [hw]
    exact (Nat.mod_eq_of_lt hlt).symm
  · intro last hl hlaid
    have hc := coveredBits_laidOut msg.signals 0 last hl (fun s _ => Nat.zero_le _) hlaid
    rw [Nat.zero_add] at hc
    have h64 : signal_in_range last := hr last (List.mem_of_mem_getLast? hl)
    have hb1 := h64.1
    have hb2 := h64.2
    refine ⟨by rw [he, hc], ?_⟩
    rw [hw, hc]
    exact Nat.mod_eq_of_lt (by omega)

/-- C18 (witness): signals A [0,8) and B [16,24): the entries A, UNKNOWN [8,16), B sum to
24 bits, the first walk accumulates 24, and B ends at bit 24. -/
theorem C18_emitted_bits_equal_padding_witness :
    msg2bsm_first_walk [plainSignal "A" 0 8, plainSignal "B" 16 8] 0 0 = 24 ∧
    ∃ o1 log,
      msg2bsm ⟨"<P>", "</P>", fun name _ _ _ => "<M " ++ name ++ ">", "</M>"⟩
          (messageOf "M" 100 3 [plainSignal "A" 0 8, plainSignal "B" 16 8]) "" 1
        = some (0, o1, log) ∧
      u32 (emittedBits log)
        = msg2bsm_first_walk
            (messageOf "M" 100 3 [plainSignal "A" 0 8, plainSignal "B" 16 8]).signals 0 0 ∧
      (emittedBits log < 4294967296 →
        emittedBits log
          = msg2bsm_first_walk
              (messageOf "M" 100 3 [plainSignal "A" 0 8, plainSignal "B" 16 8]).signals 0 0) ∧
      (∀ last : signal_t,
        (messageOf "M" 100 3 [plainSignal "A" 0 8, plainSignal "B" 16 8]).signals.getLast?
          = some last →
        (messageOf "M" 100 3 [plainSignal "A" 0 8, plainSignal "B" 16 8]).signals.Pairwise
          (fun a b => a.start_bit + a.bit_length ≤ b.start_bit) →
        emittedBits log = last.start_bit + last.bit_length ∧
        msg2bsm_first_walk
            (messageOf "M" 100 3 [plainSignal "A" 0 8, plainSignal "B" 16 8]).signals 0 0
          = last.start_bit + last.bit_length) :=
  ⟨by decide,
   C18_emitted_bits_equal_padding
    ⟨"<P>", "</P>", fun name _ _ _ => "<M " ++ name ++ ">", "</M>"⟩
    (messageOf "M" 100 3 [plainSignal "A" 0 8, plainSignal "B" 16 8]) "" 1
    (by decide) (by decide)⟩

/-- C19: for every signal with `bit_length` at most 64, every content the buffer `szBits`
takes during `signal2bsm`, after each append, has at most 127 characters, so every
`strcat_s` call fits the 128 bytes: the call returns 0 and the marker strings are
written in full.  Every filler of a signal with `start_bit` at most 64 is such a
signal. -/
theorem C19_szBits_within_buffer (sig : signal_t) (o : String) (depth : Nat)
    (h : sig.bit_length ≤ 64) :
    (∀ s ∈ signal2bsm_szBits sig, s.length ≤ 127) ∧
      signal2bsm sig o depth = some (0, o ++ blockText sig) ∧
      (∀ last_bit start_bit : Nat, start_bit ≤ 64 →
        (unknownsig last_bit start_bit).bit_length ≤ 64) :=
  ⟨signal2bsm_szBits_length sig h, signal2bsm_text sig o depth h,
   fun last_bit start_bit hs => by simp only [unknownsig]; omega⟩

/-- C19 (witness): a signal of 64 bits; the last content of the buffer, 64 markers, has
exactly 127 characters. -/
theorem C19_szBits_within_buffer_witness :
    (markers 64).length = 127 ∧
    ((∀ s ∈ signal2bsm_szBits (plainSignal "Wide" 0 64), s.length ≤ 127) ∧
      signal2bsm (plainSignal "Wide" 0 64) "" 2
        = some (0, "" ++ blockText (plainSignal "Wide" 0 64)) ∧
      (∀ last_bit start_bit : Nat, start_bit ≤ 64 →
        (unknownsig last_bit start_bit).bit_length ≤ 64)) :=
  ⟨markers_length 63, C19_szBits_within_buffer (plainSignal "Wide" 0 64) "" 2 (by decide)⟩

/-- C20: for every finite list of signals the `do ... while` swap loop of `ast2msg` ends:
a run of the `for` loop that swaps strictly decreases the number of out-of-order pairs
(inversions by `start_bit`), a run without a swap ends the loop with the array as it is,
and so the loop returns once it is allowed more runs than there are out-of-order pairs. -/
theorem C20_sort_loop_terminates :
    (∀ l : List signal_t, (ast2msg_pass l).2 = true →
        inversions (ast2msg_pass l).1 < inversions l) ∧
    (∀ (l : List signal_t) (fuel : Nat), (ast2msg_pass l).2 = false →
        ast2msg_loop (fuel + 1) l = some l) ∧
    (∀ (l : List signal_t) (fuel : Nat), inversions l < fuel →
        ∃ r, ast2msg_loop fuel l = some r) := by
  refine ⟨?_, ?_, ?_⟩
  · intro l hf
    have := ast2msg_pass_inversions l
    simp only [hf, if_true] at this
    omega
  · intro l fuel hf
    have := (ast2msg_pass_no_flip l hf).1
    simp [ast2msg_loop, hf, this]
  · intro l fuel h
    obtain ⟨r, hr, _⟩ := ast2msg_loop_spec fuel l h
    exact ⟨r, hr⟩

/-- C20 (witness): on C@9, B@4, A@0 (three out-of-order pairs) the first run swaps and
leaves one out-of-order pair; four runs are enough for the loop to return. -/
theorem C20_sort_loop_terminates_witness :
    inversions [plainSignal "C" 9 2, plainSignal "B" 4 2, plainSignal "A" 0 2] = 3 ∧
    inversions (ast2msg_pass [plainSignal "C" 9 2, plainSignal "B" 4 2, plainSignal "A" 0 2]).1
      < inversions [plainSignal "C" 9 2, plainSignal "B" 4 2, plainSignal "A" 0 2] ∧
    ∃ r, ast2msg_loop 4 [plainSignal "C" 9 2, plainSignal "B" 4 2, plainSignal "A" 0 2]
      = some r :=
  ⟨by decide,
   C20_sort_loop_terminates.1
    [plainSignal "C" 9 2, plainSignal "B" 4 2, plainSignal "A" 0 2] (by decide),
   C20_sort_loop_terminates.2.2
    [plainSignal "C" 9 2, plainSignal "B" 4 2, plainSignal "A" 0 2] 4 (by decide)⟩

end Dbcc




